import Mathlib

/-!
Verification of the backtest_optimization repository: a shallow embedding of
the daily backtest simulation engine (`backtest/backtest_strategy.py`), the
data loader (`backtest/backtest_data_loader.py`), the signal evaluators
(`modules/signals/*.py`), the strategy composer
(`strategies/strategy_marsi.py`) and the ledger replay
(`backtest/backtest_result_calculator.py`).

Conventions of the embedding:
- calendar dates are natural numbers (dates in the source are `YYYY-MM-DD`
  strings compared through `pd.to_datetime`; only their linear order is used);
- prices and indicator values are rationals; a NaN / missing cell of a price
  column is `Option.none`;
- Python dicts keyed by stock number are association lists with insertion
  order (insert replaces in place, otherwise appends at the end), mirroring
  dict iteration order;
- a pandas DataFrame of a stock is a `List` of row structures carrying the
  columns the translated code reads.
-/

/- Batteries marks the rational arithmetic operations `@[irreducible]`;
re-allow unfolding so that concrete witness evaluations go through `decide`. -/
attribute [local semireducible] Rat.mul Rat.add Rat.sub Rat.inv

/-- A row of a stock indicator table (`processed_data/{stockno}.indicators.csv`):
the columns read by the data loader.  `open`/`close` are `none` on a NaN cell. -/
structure Bar where
  date : ℕ
  openPrice : Option ℚ
  closePrice : Option ℚ
deriving DecidableEq, Repr

/-- Comparison used to sort bars by `Datetime` (`df.sort_values("Datetime")`). -/
def barDateLE (a b : Bar) : Bool := a.date ≤ b.date

/-- `BacktestDataLoader.get_next_trade_day_price`: keep rows strictly after
`date`, sort by `Datetime`, return the first row with a non-null `Open`. -/
def getNextTradeDayPrice (data : List Bar) (date : ℕ) : Option (ℕ × ℚ) :=
  let df := (data.filter (fun b => decide (date < b.date))).mergeSort barDateLE
  match df.find? (fun b => b.openPrice.isSome) with
  | some b =>
    match b.openPrice with
    | some p => some (b.date, p)
    | none => none
  | none => none

/-- Comparison used to sort bars by `Datetime` descending
(`df.sort_values("Datetime", ascending=False)`). -/
def barDateGE (a b : Bar) : Bool := b.date ≤ a.date

/-- `BacktestDataLoader.get_recent_price`: keep rows on/before `date`, sort
descending by `Datetime`, return the first non-null `Close`. -/
def getRecentPrice (data : List Bar) (date : ℕ) : Option ℚ :=
  let df := (data.filter (fun b => decide (b.date ≤ date))).mergeSort barDateGE
  match df.find? (fun b => b.closePrice.isSome) with
  | some b => b.closePrice
  | none => none

/-- `load_indicators_until_date`: truncate an already loaded (sorted) table to
rows with `Datetime <= date` (point-in-time safety). -/
def loadUntil (data : List Bar) (date : ℕ) : List Bar :=
  data.filter (fun b => decide (b.date ≤ date))

/-- Side of a pending order (the `action` string of the Python order dict,
`"BUY"` or `"SELL"`). -/
inductive TradeSide | buy | sell
deriving DecidableEq, Repr

/-- Action of a ledger record (`"BUY"`, `"SELL"` or `"HOLD"`). -/
inductive RecAction | buy | sell | hold
deriving DecidableEq, Repr

/-- A pending order: `{stockno, action, request_date, info}`.  Of the `info`
dict the engine reads only the `"buy_signal"` key, kept here as an `Option`. -/
structure Order where
  stockno : String
  action : TradeSide
  requestDate : ℕ
  info : Option String
deriving DecidableEq, Repr

/-- A holding (`self.holdings[stockno]`): `{buy_date, buy_price, buy_signal}`. -/
structure Holding where
  buyDate : ℕ
  buyPrice : ℚ
  buySignal : Option String
deriving DecidableEq, Repr

/-- A ledger record as appended by `BacktestStrategy.upgrade_records`.
(The constant `version` string naming the strategy class is omitted.) -/
structure Rec where
  buyorsell : ℤ
  opeDate : ℕ
  weight : ℚ
  targetShareholding : ℕ
  currentShareholding : ℕ
  targetWeight : ℚ
  currentWeight : ℚ
  price : Option ℚ
  stockno : String
  buySignal : Option String
  operationSucc : ℕ
  updateTime : ℕ
  gainvol : ℕ
  gaincash : ℕ
deriving DecidableEq, Repr

/-- A row of the day's candidate pool (`df_date` restricted to the columns the
engine reads: `stockno`, `rank`, `point`). -/
structure Candidate where
  stockno : String
  rank : ℚ
  point : ℚ
deriving DecidableEq, Repr

/-- An entry of `self.full_position_candidates`. -/
structure SnapEntry where
  date : ℕ
  stockno : String
  score : ℚ
  rank : ℚ
  actuallyBought : Bool
deriving DecidableEq, Repr

/-- `StrategyResult` (`strategies/base_strategy.py`), with the `info` dict
reduced to its `"buy_signal"` entry (the only key the engine consumes). -/
structure StrategyResult where
  buy : Bool
  sell : Bool
  buySignal : Option String
deriving DecidableEq, Repr

/-- `SignalResult` (`modules/signals/base_signal.py`). -/
structure SignalResult where
  buy : Bool
  sell : Bool
deriving DecidableEq, Repr

/-- Static configuration of a run (`BacktestStrategy.__init__`). -/
structure Config where
  maxHold : ℕ
  minHold : ℕ
  coreN : ℕ
deriving DecidableEq, Repr

/-- The environment a run reads: the data-loader queries (memoized pure
functions of the on-disk data), the composed strategy's buy/sell checks, and
the per-day candidate pool `df_date.nsmallest(candidate_n, "rank")` already in
rank order. -/
structure Env where
  nextTrade : String → ℕ → Option (ℕ × ℚ)
  recentPrice : String → ℕ → Option ℚ
  checkBuy : String → ℕ → Option StrategyResult
  checkSell : String → ℕ → Holding → Option StrategyResult
  pool : ℕ → List Candidate

/-- Mutable state of `BacktestStrategy.run`. -/
structure EngState where
  holdings : List (String × Holding)
  pending : List Order
  records : List Rec
  fullPos : List SnapEntry
deriving DecidableEq, Repr

/-- The initial engine state (`holdings = {}`, `pending_orders = []`,
`records = []`, `full_position_candidates = []`). -/
def initState : EngState := ⟨[], [], [], []⟩

/-- Python dict membership `k in d` for a string-keyed dict. -/
def heldIn {β : Type} (m : List (String × β)) (k : String) : Bool :=
  m.any (fun p => p.1 = k)

/-- Python dict lookup `d.get(k)`. -/
def dictGet {β : Type} (m : List (String × β)) (k : String) : Option β :=
  (m.find? (fun p => p.1 = k)).map (·.2)

/-- Python dict assignment `d[k] = v`: replace in place if present, else
append (dict insertion order). -/
def dictInsert {β : Type} (m : List (String × β)) (k : String) (v : β) :
    List (String × β) :=
  if m.any (fun p => p.1 = k) then
    m.map (fun p => if p.1 = k then (k, v) else p)
  else m ++ [(k, v)]

/-- Python `del d[k]` / `d.pop(k)` (the source always tests membership before
removing, so an unconditional filter is faithful). -/
def dictErase {β : Type} (m : List (String × β)) (k : String) :
    List (String × β) :=
  m.filter (fun p => ¬ p.1 = k)

/-- Map an order side to the ledger record action. -/
def TradeSide.toRecAction : TradeSide → RecAction
  | .buy => .buy
  | .sell => .sell

/-- `BacktestStrategy.upgrade_records`: build the record appended for an
action; every record carries `weight = 1 / max_hold`. -/
def upgradeRecords (cfg : Config) (action : RecAction) (stockno : String)
    (opeDate : ℕ) (price : Option ℚ) (updateTime : ℕ)
    (buySignal : Option String) : Rec :=
  let weight : ℚ := 1 / (cfg.maxHold : ℚ)
  match action with
  | .buy =>
    ⟨1, opeDate, weight, 100, 0, weight, weight, price, stockno, buySignal,
      1, updateTime, 0, 0⟩
  | .sell =>
    ⟨-1, opeDate, weight, 0, 100, weight, weight, price, stockno, buySignal,
      1, updateTime, 0, 0⟩
  | .hold =>
    ⟨0, opeDate, weight, 100, 100, weight, weight, price, stockno, buySignal,
      1, updateTime, 0, 0⟩

/-- Fill one pending order at trade day `td` / price `tp` (step 1 of `run`):
append the record (a SELL looks the signal name up in the holdings dict, a BUY
takes it from the order info), then create or delete the holding. -/
def fillOrder (cfg : Config) (s : EngState) (o : Order) (td : ℕ) (tp : ℚ) :
    EngState :=
  let sig : Option String :=
    match o.action with
    | .sell => (dictGet s.holdings o.stockno).bind (·.buySignal)
    | .buy => o.info
  let s1 : EngState :=
    { s with records := s.records ++
        [upgradeRecords cfg o.action.toRecAction o.stockno td (some tp)
          o.requestDate sig] }
  match o.action with
  | .buy =>
    { s1 with holdings := dictInsert s1.holdings o.stockno ⟨td, tp, o.info⟩ }
  | .sell =>
    { s1 with holdings := dictErase s1.holdings o.stockno }

/-- Step 1 of `run` over the order list: fills mutate the state, unfilled
orders are collected (in order) into `still_pending`. -/
def settleGo (cfg : Config) (env : Env) (date : ℕ) (s : EngState) :
    List Order → EngState × List Order
  | [] => (s, [])
  | o :: rest =>
    match env.nextTrade o.stockno o.requestDate with
    | some (td, tp) =>
      if td ≤ date then
        settleGo cfg env date (fillOrder cfg s o td tp) rest
      else
        let r := settleGo cfg env date s rest
        (r.1, o :: r.2)
    | none =>
      let r := settleGo cfg env date s rest
      (r.1, o :: r.2)

/-- Step 1 of `run`: process `self.pending_orders`, then
`self.pending_orders = still_pending`. -/
def settle (cfg : Config) (env : Env) (date : ℕ) (s : EngState) : EngState :=
  let r := settleGo cfg env date { s with pending := [] } s.pending
  { r.1 with pending := r.2 }

/-- Step 2 of `run`: a HOLD record for every stock held yesterday and still
held today, at the most recent close on/before today. -/
def holdScan (cfg : Config) (env : Env) (date : ℕ) (yesterday : List String)
    (s : EngState) : EngState :=
  yesterday.foldl
    (fun st k =>
      if heldIn st.holdings k then
        { st with records := st.records ++
            [upgradeRecords cfg .hold k date (env.recentPrice k date) date
              ((dictGet st.holdings k).bind (·.buySignal))] }
      else st)
    s

/-- One held stock of step 3 of `run` (`s` is the day's state whose holdings
are iterated; `st` the accumulating state): skip stocks with a pending SELL,
run the strategy sell check, enqueue a SELL order dated today on a signal. -/
def sellConsider (cfg : Config) (env : Env) (date : ℕ) (s : EngState)
    (st : EngState) (k : String) : EngState :=
  if st.pending.any (fun o => o.stockno = k ∧ o.action = .sell) then st
  else
    match dictGet s.holdings k with
    | some h =>
      match env.checkSell k date h with
      | some r =>
        if r.sell then
          { st with pending := st.pending ++ [⟨k, .sell, date, r.buySignal⟩] }
        else st
      | none => st
    | none => st

/-- Step 3 of `run`: for every held stock without a pending SELL, run the
strategy sell check; on a sell signal enqueue a SELL order dated today. -/
def sellScan (cfg : Config) (env : Env) (date : ℕ) (s : EngState) : EngState :=
  (s.holdings.map (·.1)).foldl (sellConsider cfg env date s) s

/-- `sum(1 for o in pending_orders if o["action"] == "BUY")`. -/
def countBuy (l : List Order) : ℕ :=
  (l.filter (fun o => o.action = TradeSide.buy)).length

/-- `len(self.holdings) + sum(1 for o in self.pending_orders if o["action"] == "BUY")`. -/
def commitment (s : EngState) : ℕ :=
  s.holdings.length + countBuy s.pending

/-- Lookup of a stock's `point`/`rank` in the day's pool
(`df_date[df_date["stockno"] == stockno]`, first matching row). -/
def snapLookup (poolDay : List Candidate) (k : String) : Option Candidate :=
  poolDay.find? (fun c => c.stockno = k)

/-- Accumulator of the core-tier scan: the engine state, `actually_bought`,
`is_full_position`, `full_position_recorded`. -/
structure CoreAcc where
  st : EngState
  bought : List String
  isFull : Bool
  recorded : Bool

/-- One core-tier candidate of step 4 of `run`. -/
def coreConsider (cfg : Config) (env : Env) (poolDay : List Candidate)
    (date : ℕ) (acc : CoreAcc) (k : String) : CoreAcc :=
  if heldIn acc.st.holdings k ∨ acc.st.pending.any (fun o => o.stockno = k) then
    acc
  else
    match env.checkBuy k date with
    | some r =>
      if r.buy then
        let cur := commitment acc.st
        let acc1 : CoreAcc :=
          if cur < cfg.maxHold then
            { acc with
              st := { acc.st with pending :=
                acc.st.pending ++ [⟨k, .buy, date, r.buySignal⟩] }
              bought := acc.bought ++ [k] }
          else if ¬ acc.recorded then
            { acc with
              st := { acc.st with fullPos := acc.st.fullPos ++
                acc.bought.filterMap (fun b =>
                  (snapLookup poolDay b).map (fun c =>
                    SnapEntry.mk date b c.point c.rank true)) }
              isFull := true
              recorded := true }
          else acc
        if acc1.isFull then
          match snapLookup poolDay k with
          | some c =>
            { acc1 with st := { acc1.st with fullPos := acc1.st.fullPos ++
                [⟨date, k, c.point, c.rank, acc1.bought.contains k⟩] } }
          | none => acc1
        else acc1
      else acc
    | none => acc

/-- Step 4 of `run`: scan `candidate_stocknos[:core_n]`. -/
def coreScan (cfg : Config) (env : Env) (poolDay : List Candidate)
    (date : ℕ) (s : EngState) : EngState :=
  (((poolDay.map (·.stockno)).take cfg.coreN).foldl
    (coreConsider cfg env poolDay date) ⟨s, [], false, false⟩).st

/-- The fallback loop body of step 5 of `run` (the `break` once `min_hold` is
reached, the held/pending skip, the buy check and admission). -/
def fallbackGo (cfg : Config) (env : Env) (date : ℕ) (s : EngState) :
    List String → EngState
  | [] => s
  | k :: rest =>
    if cfg.minHold ≤ commitment s then s
    else if heldIn s.holdings k ∨ s.pending.any (fun o => o.stockno = k) then
      fallbackGo cfg env date s rest
    else
      match env.checkBuy k date with
      | some r =>
        if r.buy then
          fallbackGo cfg env date
            { s with pending := s.pending ++ [⟨k, .buy, date, r.buySignal⟩] }
            rest
        else fallbackGo cfg env date s rest
      | none => fallbackGo cfg env date s rest

/-- Step 5 of `run`: if commitment is below `min_hold`, scan
`candidate_stocknos[core_n:]`. -/
def fallbackScan (cfg : Config) (env : Env) (poolDay : List Candidate)
    (date : ℕ) (s : EngState) : EngState :=
  if commitment s < cfg.minHold then
    fallbackGo cfg env date s ((poolDay.map (·.stockno)).drop cfg.coreN)
  else s

/-- One iteration of the daily loop of `BacktestStrategy.run`. -/
def dayStep (cfg : Config) (env : Env) (s : EngState) (date : ℕ) : EngState :=
  let poolDay := env.pool date
  let yesterday := s.holdings.map (·.1)
  let s1 := settle cfg env date s
  let s2 := holdScan cfg env date yesterday s1
  let s3 := sellScan cfg env date s2
  let s4 := coreScan cfg env poolDay date s3
  fallbackScan cfg env poolDay date s4

/-- `BacktestStrategy.run`: fold the daily loop over the date list. -/
def runDays (cfg : Config) (env : Env) (dates : List ℕ) (s : EngState) :
    EngState :=
  dates.foldl (dayStep cfg env) s

/-- `df.tail(n)` of pandas: the last `n` rows. -/
def tailN {α : Type} (l : List α) (n : ℕ) : List α := l.drop (l.length - n)

/-- Maximum of a list of rationals, `none` on the empty list (pandas
`Series.max()` is NaN on an all-NaN/empty series, and every comparison with
NaN is false). -/
def listMaxQ : List ℚ → Option ℚ
  | [] => none
  | x :: xs =>
    match listMaxQ xs with
    | none => some x
    | some m => some (max x m)

/-- Default `trailing_stop_rate` of `SellSignal1.__init__`. -/
def trailingStopRateDefault : ℚ := 8 / 100

/-- `SellSignal1.check_signal` (trailing stop): on the history truncated to
the query date, fire a sell exactly when today's close is strictly below
(highest close since `buy_date`, inclusive) times `(1 - trailing_stop_rate)`.
`data` is the stock's full (date-sorted) indicator table. -/
def sellSignal1Check (rate : ℚ) (data : List Bar) (date : ℕ) (buyDate : ℕ) :
    Option SignalResult :=
  let stock := loadUntil data date
  match stock.getLast? with
  | none => none
  | some today =>
    let pricesSinceBuy :=
      (stock.filter (fun b => decide (buyDate ≤ b.date))).filterMap
        (·.closePrice)
    let sell :=
      match today.closePrice, listMaxQ pricesSinceBuy with
      | some c, some h => decide (c < h * (1 - rate))
      | _, _ => false
    some ⟨false, sell⟩

/-- A row of the indicator table as read by `BuySignal2.check_signal`
(columns `Close`, `macd`, `signal`, `ema{ema_length}`). -/
structure MacdRow where
  date : ℕ
  close : ℚ
  macd : ℚ
  signal : ℚ
  ema : ℚ
deriving DecidableEq, Repr

/-- Insert into an ascending list (used to model numpy's ascending sort). -/
def insertSorted (x : ℚ) : List ℚ → List ℚ
  | [] => [x]
  | y :: ys => if x ≤ y then x :: y :: ys else y :: insertSorted x ys

/-- Ascending sort of rationals (insertion sort; any correct ascending sort
models the `np.sort` inside `np.percentile`). -/
def sortAsc : List ℚ → List ℚ
  | [] => []
  | x :: xs => insertSorted x (sortAsc xs)

/-- `np.percentile(xs, q)` with the default linear interpolation: on the
sorted values `b`, the virtual index is `h = (len - 1) * q / 100` and the
result interpolates between `b[floor h]` and `b[floor h + 1]`. -/
def npPercentile (xs : List ℚ) (q : ℚ) : ℚ :=
  let b := sortAsc xs
  let h : ℚ := ((b.length : ℚ) - 1) * q / 100
  let i : ℕ := (⌊h⌋).toNat
  let lo := b.getD i 0
  let hi := b.getD (i + 1) lo
  lo + (h - (⌊h⌋ : ℚ)) * (hi - lo)

/-- Defaults of `BuySignal2.__init__`. -/
def macdHistoryDaysDefault : ℕ := 250

/-- Default `ema_length` of `BuySignal2.__init__`. -/
def emaLengthDefault : ℕ := 50

/-- Default `macd_low_quantile` of `BuySignal2.__init__`. -/
def macdLowQuantileDefault : ℚ := 25

/-- `BuySignal2.check_signal` (low-momentum MACD crossover).  `data` is the
`load_indicators` result for the stock (`none` when the series is missing);
the function truncates it to the query date as `load_indicators_until_date`
does.  Mirrors the source: `None` when the data is missing or shorter than
`max(ema_length, 5)`; otherwise fires exactly when the low-position golden
cross and the rising-EMA filter both hold. -/
def buySignal2Check (macdHistoryDays emaLength : ℕ) (macdLowQuantile : ℚ)
    (data : Option (List MacdRow)) (date : ℕ) : Option SignalResult :=
  match data with
  | none => none
  | some dfAll =>
    let df := dfAll.filter (fun r => decide (r.date ≤ date))
    if df.length < max emaLength 5 then none
    else
      let d0 : MacdRow := ⟨0, 0, 0, 0, 0⟩
      let today := df.getD (df.length - 1) d0
      let yesterday := df.getD (df.length - 2) d0
      let macdThreshold :=
        npPercentile ((tailN df macdHistoryDays).map (fun r => |r.macd|))
          macdLowQuantile
      let isLowMacdGoldenCross :=
        decide (0 < today.macd) && decide (today.macd < macdThreshold) &&
        decide (today.signal < today.macd) &&
        decide (yesterday.macd ≤ yesterday.signal)
      let ema5DaysAgo := (df.getD (df.length - 5) d0).ema
      let isPriceAboveRisingEma :=
        decide (today.ema < today.close) && decide (ema5DaysAgo < today.ema)
      some ⟨isLowMacdGoldenCross && isPriceAboveRisingEma, false⟩

/-- A row of the indicator table as read by `BuySignal3.check_signal`
(columns `Close`, `sma20`, `lower20`). -/
structure BollRow where
  date : ℕ
  close : ℚ
  sma20 : ℚ
  lower20 : ℚ
deriving DecidableEq, Repr

/-- Result of running a piece of Python code that may raise an uncaught
exception. -/
inductive PyResult (α : Type) where
  | ok (val : α)
  | exn (msg : String)
deriving DecidableEq, Repr

/-- Defaults of `BuySignal3.__init__`. -/
def lookbackDaysDefault : ℕ := 15

/-- Default `max_below_sma_ratio` of `BuySignal3.__init__`. -/
def maxBelowSmaRateDefault : ℚ := 8 / 10

/-- `BuySignal3.check_signal` (Bollinger band breakout).  `data` is the
`load_indicators` result for the stock: when it is `None`
(`load_indicators_until_date` then also returns `None`), the source evaluates
`len(dataframe)` on `None` and raises `TypeError`, modelled by `PyResult.exn`;
there is no surrounding handler in `StrategyMarsi.check_buy` or
`BacktestStrategy.run`, so the exception aborts the run. -/
def buySignal3Check (lookbackDays : ℕ) (maxBelowSmaRate : ℚ)
    (data : Option (List BollRow)) (date : ℕ) :
    PyResult (Option SignalResult) :=
  match data with
  | none => .exn "TypeError: object of type NoneType has no len"
  | some dfAll =>
    let df := dfAll.filter (fun r => decide (r.date ≤ date))
    if df.length < 2 then .ok none
    else
      let b0 : BollRow := ⟨0, 0, 0, 0⟩
      let currentRow := df.getD (df.length - 1) b0
      let previousRow := df.getD (df.length - 2) b0
      let crossedAboveLowerBand :=
        decide (currentRow.lower20 < currentRow.close) &&
        decide (previousRow.close < previousRow.lower20)
      let belowSmaCount :=
        ((tailN df lookbackDays).filter
          (fun r => decide (r.close < r.sma20))).length
      let belowSmaFrac : ℚ := (belowSmaCount : ℚ) / (lookbackDays : ℚ)
      let sufficientClosesAboveSma := decide (belowSmaFrac < maxBelowSmaRate)
      .ok (some ⟨crossedAboveLowerBand && sufficientClosesAboveSma, false⟩)

/-- `BuySignal2.check_signal` run on a possibly-missing series never raises:
it guards `df is None` itself (contrast with `BuySignal3`). -/
def buySignal2CheckPy (macdHistoryDays emaLength : ℕ) (macdLowQuantile : ℚ)
    (data : Option (List MacdRow)) (date : ℕ) :
    PyResult (Option SignalResult) :=
  .ok (buySignal2Check macdHistoryDays emaLength macdLowQuantile data date)

/-- A row of the broad-index table built by `load_hsi` (columns `Close`,
`MA200`, `RSI`; the moving average and the oscillator are NaN during their
warm-up window, hence `Option`). -/
structure HsiBar where
  date : ℕ
  close : ℚ
  ma200 : Option ℚ
  rsi : Option ℚ
deriving DecidableEq, Repr

/-- `np.searchsorted(side="right")` on a sorted column: the number of leading
entries `≤ x`. -/
def searchsortedRight (dates : List ℕ) (x : ℕ) : ℕ :=
  (dates.takeWhile (fun d => decide (d ≤ x))).length

/-- The broad-index bar `StrategyMarsi.check_buy` reads:
`pos = hsi["Datetime"].searchsorted(dt, side="right") - 1`, `none` when
`pos < 0`. -/
def marsiBar (hsi : List HsiBar) (date : ℕ) : Option HsiBar :=
  let n := searchsortedRight (hsi.map (·.date)) date
  if n = 0 then none
  else some (hsi.getD (n - 1) ⟨0, 0, none, none⟩)

/-- `StrategyMarsi.check_buy`: read the last broad-index bar dated on/before
the query date; `None` when there is none or its `MA200`/`RSI` is NaN;
dispatch to `buy_signal1` when the index close is below its `MA200`, else to
`buy_signal3`; on a fired signal set `buy = 1` and store the evaluator's class
name under `"buy_signal"` in `info`. -/
def checkBuyMarsi (hsi : List HsiBar)
    (sig1 sig3 : String → ℕ → Option SignalResult)
    (stockno : String) (date : ℕ) : Option StrategyResult :=
  match marsiBar hsi date with
  | none => none
  | some bar =>
    match bar.ma200, bar.rsi with
    | some ma, some _ =>
      if bar.close < ma then
        match sig1 stockno date with
        | some r =>
          if r.buy then some ⟨true, false, some "BuySignal1"⟩
          else some ⟨false, false, none⟩
        | none => some ⟨false, false, none⟩
      else
        match sig3 stockno date with
        | some r =>
          if r.buy then some ⟨true, false, some "BuySignal3"⟩
          else some ⟨false, false, none⟩
        | none => some ⟨false, false, none⟩
    | _, _ => none

/-- A row of the records table as consumed by
`BacktestResultCalculator.calculate_returns` (columns `buyorsell`,
`ope_date`, `weight`, `price`, `stockno`). -/
structure CalcRow where
  buyorsell : ℤ
  opeDate : ℕ
  weight : ℚ
  price : ℚ
  stockno : String
deriving DecidableEq, Repr

/-- One daily snapshot appended to `daily_records`. -/
structure DailySnap where
  date : ℕ
  cash : ℚ
  holdingsValue : ℚ
  totalAsset : ℚ
deriving DecidableEq, Repr

/-- `sum(s * p for s, p in holdings.values())`. -/
def holdingsValue (m : List (String × ℤ × ℚ)) : ℚ :=
  (m.map (fun p => (p.2.1 : ℚ) * p.2.2)).sum

/-- `int((total_asset_estimate * weight) // price)`: the BUY sizing of the
replay, a floor division of the weighted asset estimate by the fill price. -/
def buyTradeShares (est weight price : ℚ) : ℤ := ⌊est * weight / price⌋

/-- Process one BUY/SELL row of a day (`calculate_returns`, step 2):
`cm` is the running `(cash, holdings)` pair, `est` the day-start asset
estimate. -/
def processTradeRow (tax est : ℚ) (cm : ℚ × List (String × ℤ × ℚ))
    (row : CalcRow) : ℚ × List (String × ℤ × ℚ) :=
  let cash := cm.1
  let m := cm.2
  if row.buyorsell = 1 then
    let tradeShares := buyTradeShares est row.weight row.price
    if 0 < tradeShares then
      let cost := (tradeShares : ℚ) * row.price * (1 + tax)
      let tradeShares2 :=
        if cash < cost then ⌊cash / (row.price * (1 + tax))⌋ else tradeShares
      let cost2 :=
        if cash < cost then (tradeShares2 : ℚ) * row.price * (1 + tax)
        else cost
      if 0 < tradeShares2 then
        let prevShares := match dictGet m row.stockno with
          | some sp => sp.1
          | none => 0
        (cash - cost2,
          dictInsert m row.stockno (prevShares + tradeShares2, row.price))
      else (cash, m)
    else (cash, m)
  else if row.buyorsell = -1 then
    match dictGet m row.stockno with
    | some sp =>
      (cash + (sp.1 : ℚ) * row.price * (1 - tax), dictErase m row.stockno)
    | none => (cash, m)
  else (cash, m)

/-- Process one HOLD row of a day (`calculate_returns`, step 3): refresh the
mark-to-market price of a still-held stock. -/
def processHoldRow (m : List (String × ℤ × ℚ)) (row : CalcRow) :
    List (String × ℤ × ℚ) :=
  match dictGet m row.stockno with
  | some sp => dictInsert m row.stockno (sp.1, row.price)
  | none => m

/-- One date group of `calculate_returns`: estimate assets, apply the BUY/SELL
rows, then the HOLD rows, then snapshot. -/
def calcDay (tax : ℚ) (recs : List CalcRow)
    (acc : ℚ × List (String × ℤ × ℚ) × List DailySnap) (d : ℕ) :
    ℚ × List (String × ℤ × ℚ) × List DailySnap :=
  let cash := acc.1
  let m := acc.2.1
  let snaps := acc.2.2
  let dfDay := recs.filter (fun r => r.opeDate = d)
  let est := cash + holdingsValue m
  let cm := dfDay.foldl (processTradeRow tax est) (cash, m)
  let m2 := (dfDay.filter (fun r => r.buyorsell = 0)).foldl processHoldRow cm.2
  let total := cm.1 + holdingsValue m2
  (cm.1, m2, snaps ++ [⟨d, cm.1, holdingsValue m2, total⟩])

/-- `BacktestResultCalculator.calculate_returns` as a function of the record
table: walk the distinct `ope_date`s in ascending order and produce the daily
`{cash, holdings_value, total_asset}` snapshots. -/
def computeDaily (initialCapital tax : ℚ) (recs : List CalcRow) :
    List DailySnap :=
  let dates := ((recs.map (·.opeDate)).dedup).mergeSort
    (fun a b => decide (a ≤ b))
  (dates.foldl (calcDay tax recs) (initialCapital, [], [])).2.2

/-- The `BacktestResultCalculator` object state the replay mutates:
`self.daily_returns`. -/
structure ResultCalc where
  dailyReturns : List DailySnap
deriving DecidableEq, Repr

/-- The `calculate_returns` method: recompute `self.daily_returns` from the
passed records (an empty table resets it to `[]`, as in the source). -/
def calculateReturns (c : ResultCalc) (recs : List CalcRow)
    (initialCapital tax : ℚ) : ResultCalc :=
  if recs.isEmpty then { c with dailyReturns := [] }
  else { c with dailyReturns := computeDaily initialCapital tax recs }

/-! ## Generic helper lemmas -/

/-- Preservation of an invariant along a `foldl`. -/
lemma foldl_pres {α σ : Type _} {P : σ → Prop} (f : σ → α → σ)
    (h : ∀ s x, P s → P (f s x)) :
    ∀ (l : List α) (s : σ), P s → P (l.foldl f s) := by
  intro l
  induction l with
  | nil => intro s hs; exact hs
  | cons a t ih => intro s hs; exact ih (f s a) (h s a hs)

lemma heldIn_iff {β : Type} (m : List (String × β)) (j : String) :
    heldIn m j = true ↔ j ∈ m.map (·.1) := by
  unfold heldIn
  simp only [List.any_eq_true, decide_eq_true_eq, List.mem_map]

lemma dictGet_some_heldIn {β : Type} {m : List (String × β)} {k : String}
    {v : β} (h : dictGet m k = some v) : heldIn m k = true := by
  unfold dictGet at h
  rcases ho : m.find? (fun p => p.1 = k) with _ | p
  · rw [ho] at h; simp at h
  · have hm := List.mem_of_find?_eq_some ho
    have hp := List.find?_some ho
    simp only [decide_eq_true_eq] at hp
    rw [heldIn_iff]
    exact List.mem_map.2 ⟨p, hm, hp⟩

lemma heldIn_false_not_mem {β : Type} {m : List (String × β)} {k : String}
    (h : heldIn m k = false) : k ∉ m.map (·.1) := by
  intro hmem
  rw [← heldIn_iff] at hmem
  rw [h] at hmem
  exact Bool.false_ne_true hmem

lemma dictInsert_map_fst {β : Type} (m : List (String × β)) (k : String)
    (v : β) :
    (dictInsert m k v).map (·.1) =
      if heldIn m k = true then m.map (·.1) else m.map (·.1) ++ [k] := by
  unfold dictInsert heldIn
  by_cases hk : (m.any fun p => decide (p.1 = k)) = true
  · rw [if_pos hk, if_pos hk, List.map_map]
    apply List.map_congr_left
    intro p _
    simp only [Function.comp_apply]
    by_cases hp : p.1 = k
    · rw [if_pos hp]; exact hp.symm
    · rw [if_neg hp]
  · rw [if_neg hk, if_neg hk, List.map_append]
    rfl

lemma dictInsert_length {β : Type} (m : List (String × β)) (k : String)
    (v : β) :
    (dictInsert m k v).length =
      if heldIn m k = true then m.length else m.length + 1 := by
  have h := congrArg List.length (dictInsert_map_fst m k v)
  simp only [List.length_map] at h
  by_cases hk : heldIn m k = true <;> simp [hk] at h ⊢ <;> omega

lemma dictErase_map_fst {β : Type} (m : List (String × β)) (k : String) :
    (dictErase m k).map (·.1) = (m.map (·.1)).filter (fun x => ¬ x = k) := by
  unfold dictErase
  induction m with
  | nil => rfl
  | cons p t ih =>
    by_cases hp : p.1 = k <;>
      simp [List.filter_cons, hp, decide_not] at ih ⊢ <;> simp [ih]

lemma dictErase_length_le {β : Type} (m : List (String × β)) (k : String) :
    (dictErase m k).length ≤ m.length :=
  List.length_filter_le _ m

/-! ## Commitment accounting (claim C1) -/

lemma countBuy_cons (o : Order) (l : List Order) :
    countBuy (o :: l) =
      (if o.action = TradeSide.buy then 1 else 0) + countBuy l := by
  unfold countBuy
  rw [List.filter_cons]
  by_cases h : o.action = TradeSide.buy <;> simp [h] <;> omega

lemma countBuy_append (l₁ l₂ : List Order) :
    countBuy (l₁ ++ l₂) = countBuy l₁ + countBuy l₂ := by
  unfold countBuy
  rw [List.filter_append, List.length_append]

lemma countBuy_single (o : Order) :
    countBuy [o] = if o.action = TradeSide.buy then 1 else 0 := by
  rw [countBuy_cons]
  simp [countBuy]

lemma fillOrder_pending (cfg : Config) (s : EngState) (o : Order) (td : ℕ)
    (tp : ℚ) : (fillOrder cfg s o td tp).pending = s.pending := by
  unfold fillOrder
  cases o.action <;> rfl

lemma fillOrder_holdings_le (cfg : Config) (s : EngState) (o : Order)
    (td : ℕ) (tp : ℚ) :
    (fillOrder cfg s o td tp).holdings.length ≤
      s.holdings.length + (if o.action = TradeSide.buy then 1 else 0) := by
  unfold fillOrder
  cases ha : o.action
  · simp only [ha, if_pos rfl]
    rw [dictInsert_length]
    split <;> simp
  · simp only [ha]
    have := dictErase_length_le (β := Holding) s.holdings o.stockno
    simp only [if_neg (by simp : ¬TradeSide.sell = TradeSide.buy)]
    omega

lemma settleGo_commit_le (cfg : Config) (env : Env) (date : ℕ) :
    ∀ (todo : List Order) (s : EngState),
      (settleGo cfg env date s todo).1.holdings.length +
        countBuy (settleGo cfg env date s todo).2 ≤
      s.holdings.length + countBuy todo := by
  intro todo
  induction todo with
  | nil => intro s; simp [settleGo, countBuy]
  | cons o rest ih =>
    intro s
    rw [countBuy_cons]
    simp only [settleGo]
    rcases hnt : env.nextTrade o.stockno o.requestDate with _ | ⟨td, tp⟩
    · simp only [countBuy_cons]
      have := ih s
      omega
    · by_cases htd : td ≤ date
    
      · simp only [if_pos htd]
        have h1 := ih (fillOrder cfg s o td tp)
        have h2 := fillOrder_holdings_le cfg s o td tp
        omega
      · simp only [if_neg htd, countBuy_cons]
        have := ih s
        omega

lemma settle_commit_le (cfg : Config) (env : Env) (date : ℕ) (s : EngState) :
    commitment (settle cfg env date s) ≤ commitment s := by
  unfold settle commitment
  exact settleGo_commit_le cfg env date s.pending { s with pending := [] }

lemma holdScan_holdings_pending (cfg : Config) (env : Env) (date : ℕ)
    (ys : List String) (s : EngState) :
    (holdScan cfg env date ys s).holdings = s.holdings ∧
    (holdScan cfg env date ys s).pending = s.pending := by
  unfold holdScan
  refine foldl_pres
    (P := fun st : EngState => st.holdings = s.holdings ∧ st.pending = s.pending)
    _ ?_ ys s ⟨rfl, rfl⟩
  intro st k ⟨h1, h2⟩
  split <;> exact ⟨h1, h2⟩

lemma sellScan_holdings_countBuy (cfg : Config) (env : Env) (date : ℕ)
    (s : EngState) :
    (sellScan cfg env date s).holdings = s.holdings ∧
    countBuy (sellScan cfg env date s).pending = countBuy s.pending := by
  unfold sellScan
  refine foldl_pres
    (P := fun st : EngState => st.holdings = s.holdings ∧
      countBuy st.pending = countBuy s.pending)
    _ ?_ (s.holdings.map (·.1)) s ⟨rfl, rfl⟩
  intro st k ⟨h1, h2⟩
  unfold sellConsider
  split
  · exact ⟨h1, h2⟩
  · split
    · split
      · split
        · refine ⟨h1, ?_⟩
          rw [countBuy_append, h2]
          simp [countBuy]
        · exact ⟨h1, h2⟩
      · exact ⟨h1, h2⟩
    · exact ⟨h1, h2⟩

lemma coreConsider_commit_le (cfg : Config) (env : Env)
    (poolDay : List Candidate) (date : ℕ) (acc : CoreAcc) (k : String)
    (h : commitment acc.st ≤ cfg.maxHold) :
    commitment (coreConsider cfg env poolDay date acc k).st ≤ cfg.maxHold := by
  unfold coreConsider
  split
  · exact h
  · split
    · split
      · have hpend : ∀ (a : CoreAcc),
            commitment a.st ≤ cfg.maxHold →
            commitment (if a.isFull = true then
              match snapLookup poolDay k with
              | some c => { a with st := { a.st with fullPos := a.st.fullPos ++
                  [⟨date, k, c.point, c.rank, a.bought.contains k⟩] } }
              | none => a
            else a).st ≤ cfg.maxHold := by
          intro a ha
          split
          · split <;> simpa [commitment]
          · exact ha
        apply hpend
        split
        · rename_i hcur
          simp only [commitment] at h hcur ⊢
          rw [countBuy_append, countBuy_single]
          norm_num
          omega
        · split <;> simpa [commitment]
      · exact h
    · exact h

lemma coreScan_commit_le (cfg : Config) (env : Env)
    (poolDay : List Candidate) (date : ℕ) (s : EngState)
    (h : commitment s ≤ cfg.maxHold) :
    commitment (coreScan cfg env poolDay date s) ≤ cfg.maxHold := by
  unfold coreScan
  exact foldl_pres (P := fun a : CoreAcc => commitment a.st ≤ cfg.maxHold)
    _ (fun a k ha => coreConsider_commit_le cfg env poolDay date a k ha)
    _ _ h

lemma fallbackGo_commit_le (cfg : Config) (env : Env) (date : ℕ)
    (hmm : cfg.minHold ≤ cfg.maxHold) :
    ∀ (ks : List String) (s : EngState), commitment s ≤ cfg.maxHold →
      commitment (fallbackGo cfg env date s ks) ≤ cfg.maxHold := by
  intro ks
  induction ks with
  | nil => intro s h; exact h
  | cons k rest ih =>
    intro s h
    unfold fallbackGo
    split
    · exact h
    · rename_i hbreak
      split
      · exact ih s h
      · split
        · split
          · apply ih
            simp only [not_le, commitment] at hbreak
            simp only [commitment]
            rw [countBuy_append, countBuy_single]
            norm_num
            omega
          · exact ih s h
        · exact ih s h

lemma fallbackScan_commit_le (cfg : Config) (env : Env)
    (poolDay : List Candidate) (date : ℕ) (s : EngState)
    (hmm : cfg.minHold ≤ cfg.maxHold) (h : commitment s ≤ cfg.maxHold) :
    commitment (fallbackScan cfg env poolDay date s) ≤ cfg.maxHold := by
  unfold fallbackScan
  split
  · exact fallbackGo_commit_le cfg env date hmm _ s h
  · exact h

lemma dayStep_commit_le (cfg : Config) (env : Env) (s : EngState) (date : ℕ)
    (hmm : cfg.minHold ≤ cfg.maxHold) (h : commitment s ≤ cfg.maxHold) :
    commitment (dayStep cfg env s date) ≤ cfg.maxHold := by
  unfold dayStep
  apply fallbackScan_commit_le cfg env _ _ _ hmm
  apply coreScan_commit_le
  have hs := sellScan_holdings_countBuy cfg env date
    (holdScan cfg env date (s.holdings.map (·.1)) (settle cfg env date s))
  have hh := holdScan_holdings_pending cfg env date (s.holdings.map (·.1))
    (settle cfg env date s)
  have hst := settle_commit_le cfg env date s
  simp only [commitment] at *
  rw [hs.1, hs.2, hh.1, hh.2]
  omega

lemma runDays_commit_le (cfg : Config) (env : Env) (dates : List ℕ)
    (hmm : cfg.minHold ≤ cfg.maxHold) :
    commitment (runDays cfg env dates initState) ≤ cfg.maxHold := by
  unfold runDays
  refine foldl_pres (P := fun s => commitment s ≤ cfg.maxHold) _
    (fun s d h => dayStep_commit_le cfg env s d hmm h) dates initState ?_
  simp [commitment, initState, countBuy]

lemma coreConsider_pending_of_full (cfg : Config) (env : Env)
    (poolDay : List Candidate) (date : ℕ) (acc : CoreAcc) (k : String)
    (hcur : ¬ commitment acc.st < cfg.maxHold) :
    (coreConsider cfg env poolDay date acc k).st.pending = acc.st.pending := by
  unfold coreConsider
  by_cases hskip : (heldIn acc.st.holdings k = true ∨
      (acc.st.pending.any fun o => decide (o.stockno = k)) = true)
  · rw [if_pos hskip]
  · rw [if_neg hskip]
    rcases env.checkBuy k date with _ | r
    · rfl
    · by_cases hbuy : r.buy = true
      · simp only [if_pos hbuy, if_neg hcur]
        by_cases hrec : acc.recorded = true
        · rw [if_neg (not_not_intro hrec)]
          by_cases hfull : acc.isFull = true
          · simp only [if_pos hfull]
            cases snapLookup poolDay k <;> rfl
          · simp only [if_neg hfull]
        · rw [if_pos hrec]
          simp only [if_pos rfl]
          cases snapLookup poolDay k <;> rfl
      · simp only [if_neg hbuy]

/-- Concrete configuration used by the witness runs. -/
def cfgW : Config := ⟨2, 1, 2⟩

/-- Concrete environment used by the witness runs: two candidates whose buy
signals always fire, fills on the next day at price 10, no sell signals. -/
def envW : Env where
  nextTrade := fun _ d => some (d + 1, 10)
  recentPrice := fun _ _ => some 10
  checkBuy := fun _ _ => some ⟨true, false, some "BuySignal3"⟩
  checkSell := fun _ _ _ => some ⟨false, false, none⟩
  pool := fun _ => [⟨"A", 1, 5⟩, ⟨"B", 2, 4⟩]

/-- Claim C1: over any run, at every day boundary the number of open holdings
is at most `max_hold` (provided the configuration is consistent,
`min_hold ≤ max_hold`); moreover the core-tier entry step only ever adds a
pending BUY order when the current total commitment (open holdings plus
pending BUY orders) is strictly below `max_hold`. -/
theorem capacity_invariant (cfg : Config) (env : Env)
    (hmin : cfg.minHold ≤ cfg.maxHold) (dates : List ℕ) :
    (runDays cfg env dates initState).holdings.length ≤ cfg.maxHold ∧
    ∀ (poolDay : List Candidate) (date : ℕ) (acc : CoreAcc) (k : String),
      (coreConsider cfg env poolDay date acc k).st.pending ≠ acc.st.pending →
      commitment acc.st < cfg.maxHold := by
  constructor
  · have h := runDays_commit_le cfg env dates hmin
    simp only [commitment] at h
    omega
  · intro poolDay date acc k hne
    by_contra hcur
    exact hne (coreConsider_pending_of_full cfg env poolDay date acc k hcur)

/-- Witness for `capacity_invariant`: a concrete two-day run with two
admitted candidates, evaluated on `cfgW`/`envW`. -/
theorem capacity_invariant_witness :
    cfgW.minHold ≤ cfgW.maxHold ∧
    ((runDays cfgW envW [0, 1] initState).holdings.length ≤ cfgW.maxHold ∧
     ∀ (poolDay : List Candidate) (date : ℕ) (acc : CoreAcc) (k : String),
       (coreConsider cfgW envW poolDay date acc k).st.pending ≠
         acc.st.pending →
       commitment acc.st < cfgW.maxHold) :=
  ⟨by decide, capacity_invariant cfgW envW (by decide) [0, 1]⟩

/-- Claim C9: replaying the same record sequence through
`BacktestResultCalculator.calculate_returns` twice yields identical daily
equity snapshots; no state carried over from the first replay affects the
second. -/
theorem ledger_replay_idempotence (c : ResultCalc) (recs : List CalcRow)
    (initialCapital tax : ℚ) :
    (calculateReturns (calculateReturns c recs initialCapital tax) recs
        initialCapital tax).dailyReturns =
      (calculateReturns c recs initialCapital tax).dailyReturns := by
  unfold calculateReturns
  by_cases h : recs.isEmpty <;> simp [h]

/-- Claim C8 (code bug): with a missing indicator series (`load_indicators`
returns `None`), `BuySignal3.check_signal` evaluates `len(None)` and raises
`TypeError` instead of returning an indeterminate result — there is no
handler in `StrategyMarsi.check_buy` or in the daily loop of
`BacktestStrategy.run`, so the exception aborts the whole run; its sibling
`BuySignal2.check_signal` guards the same condition and returns `None`
gracefully. -/
theorem missing_data_fatal_in_buy_signal3 :
    buySignal3Check lookbackDaysDefault maxBelowSmaRateDefault none 7 =
      PyResult.exn "TypeError: object of type NoneType has no len" ∧
    buySignal2CheckPy macdHistoryDaysDefault emaLengthDefault
      macdLowQuantileDefault none 7 = PyResult.ok none :=
  ⟨rfl, rfl⟩

/-! ## Uniform record weight (claim C10) -/

lemma upgradeRecords_weight (cfg : Config) (a : RecAction) (k : String)
    (d : ℕ) (p : Option ℚ) (u : ℕ) (b : Option String) :
    (upgradeRecords cfg a k d p u b).weight = 1 / (cfg.maxHold : ℚ) := by
  cases a <;> rfl

/-- Every record of the state has weight `1 / max_hold`. -/
def recWeightOK (cfg : Config) (s : EngState) : Prop :=
  ∀ r ∈ s.records, r.weight = 1 / (cfg.maxHold : ℚ)

lemma fillOrder_records (cfg : Config) (s : EngState) (o : Order) (td : ℕ)
    (tp : ℚ) :
    (fillOrder cfg s o td tp).records = s.records ++
      [upgradeRecords cfg o.action.toRecAction o.stockno td (some tp)
        o.requestDate (match o.action with
          | .sell => (dictGet s.holdings o.stockno).bind (·.buySignal)
          | .buy => o.info)] := by
  unfold fillOrder
  cases o.action <;> rfl

lemma fillOrder_recWeightOK (cfg : Config) (s : EngState) (o : Order)
    (td : ℕ) (tp : ℚ) (h : recWeightOK cfg s) :
    recWeightOK cfg (fillOrder cfg s o td tp) := by
  intro r hr
  rw [fillOrder_records] at hr
  rcases List.mem_append.1 hr with hr | hr
  · exact h r hr
  · rcases List.mem_singleton.1 hr with rfl
    exact upgradeRecords_weight ..

lemma settleGo_recWeightOK (cfg : Config) (env : Env) (date : ℕ) :
    ∀ (todo : List Order) (s : EngState), recWeightOK cfg s →
      recWeightOK cfg (settleGo cfg env date s todo).1 := by
  intro todo
  induction todo with
  | nil => intro s h; exact h
  | cons o rest ih =>
    intro s h
    unfold settleGo
    rcases env.nextTrade o.stockno o.requestDate with _ | ⟨td, tp⟩
    · exact ih s h
    · by_cases htd : td ≤ date
      · simp only [if_pos htd]
        exact ih _ (fillOrder_recWeightOK cfg s o td tp h)
      · simp only [if_neg htd]
        exact ih s h

lemma settle_recWeightOK (cfg : Config) (env : Env) (date : ℕ) (s : EngState)
    (h : recWeightOK cfg s) : recWeightOK cfg (settle cfg env date s) := by
  unfold settle
  intro r hr
  exact settleGo_recWeightOK cfg env date s.pending { s with pending := [] }
    h r hr

lemma holdScan_recWeightOK (cfg : Config) (env : Env) (date : ℕ)
    (ys : List String) (s : EngState) (h : recWeightOK cfg s) :
    recWeightOK cfg (holdScan cfg env date ys s) := by
  unfold holdScan
  refine foldl_pres (P := recWeightOK cfg) _ ?_ ys s h
  intro st k hst
  split
  · intro r hr
    rcases List.mem_append.1 hr with hr | hr
    · exact hst r hr
    · rcases List.mem_singleton.1 hr with rfl
      exact upgradeRecords_weight ..
  · exact hst

lemma sellScan_records (cfg : Config) (env : Env) (date : ℕ) (s : EngState) :
    (sellScan cfg env date s).records = s.records := by
  unfold sellScan
  refine foldl_pres (P := fun st : EngState => st.records = s.records)
    _ ?_ (s.holdings.map (·.1)) s rfl
  intro st k hst
  unfold sellConsider
  split
  · exact hst
  · split
    · split
      · split
        · exact hst
        · exact hst
      · exact hst
    · exact hst

lemma coreConsider_records (cfg : Config) (env : Env)
    (poolDay : List Candidate) (date : ℕ) (acc : CoreAcc) (k : String) :
    (coreConsider cfg env poolDay date acc k).st.records = acc.st.records := by
  simp only [coreConsider]
  repeat' split
  all_goals rfl

lemma coreScan_records (cfg : Config) (env : Env) (poolDay : List Candidate)
    (date : ℕ) (s : EngState) :
    (coreScan cfg env poolDay date s).records = s.records := by
  unfold coreScan
  exact foldl_pres (P := fun a : CoreAcc => a.st.records = s.records)
    _ (fun a k ha => (coreConsider_records cfg env poolDay date a k).trans ha)
    _ _ rfl

lemma fallbackGo_records (cfg : Config) (env : Env) (date : ℕ) :
    ∀ (ks : List String) (s : EngState),
      (fallbackGo cfg env date s ks).records = s.records := by
  intro ks
  induction ks with
  | nil => intro s; rfl
  | cons k rest ih =>
    intro s
    unfold fallbackGo
    split
    · rfl
    · split
      · exact ih s
      · split
        · split
          · exact ih _
          · exact ih s
        · exact ih s

lemma fallbackScan_records (cfg : Config) (env : Env)
    (poolDay : List Candidate) (date : ℕ) (s : EngState) :
    (fallbackScan cfg env poolDay date s).records = s.records := by
  unfold fallbackScan
  split
  · exact fallbackGo_records cfg env date _ s
  · rfl

lemma dayStep_recWeightOK (cfg : Config) (env : Env) (s : EngState)
    (date : ℕ) (h : recWeightOK cfg s) :
    recWeightOK cfg (dayStep cfg env s date) := by
  unfold dayStep
  intro r hr
  rw [fallbackScan_records, coreScan_records, sellScan_records] at hr
  exact holdScan_recWeightOK cfg env date _ _
    (settle_recWeightOK cfg env date s h) r hr

/-- Claim C10: every ledger record the engine appends — BUY, SELL and HOLD
alike — carries weight exactly `1 / max_hold`, so the replay's BUY sizing
`int((total_asset_estimate * weight) // price)` uses the fixed fraction
`1 / max_hold` for every buy of the run. -/
theorem uniform_record_weight (cfg : Config) (env : Env) (dates : List ℕ)
    (r : Rec) (hr : r ∈ (runDays cfg env dates initState).records) :
    r.weight = 1 / (cfg.maxHold : ℚ) ∧
    ∀ est price : ℚ, buyTradeShares est r.weight price =
      ⌊est * (1 / (cfg.maxHold : ℚ)) / price⌋ := by
  have hw : r.weight = 1 / (cfg.maxHold : ℚ) := by
    refine foldl_pres (P := recWeightOK cfg) _
      (fun s d h => dayStep_recWeightOK cfg env s d h) dates initState
      ?_ r hr
    intro x hx
    simp [initState] at hx
  refine ⟨hw, ?_⟩
  intro est price
  rw [hw]
  rfl

/-- The BUY fill record produced by the witness run (`envW` fills the order
requested on day 0 at day 1, price 10). -/
def rW : Rec :=
  upgradeRecords cfgW RecAction.buy "A" 1 (some 10) 0 (some "BuySignal3")

/-- Witness for `uniform_record_weight`: the concrete two-day run produces
the BUY record `rW`, and its weight is `1 / max_hold = 1 / 2`. -/
theorem uniform_record_weight_witness :
    rW ∈ (runDays cfgW envW [0, 1] initState).records ∧
    (rW.weight = 1 / (cfgW.maxHold : ℚ) ∧
     ∀ est price : ℚ, buyTradeShares est rW.weight price =
       ⌊est * (1 / (cfgW.maxHold : ℚ)) / price⌋) := by
  have hmem : rW ∈ (runDays cfgW envW [0, 1] initState).records := by
    have h : (runDays cfgW envW [0, 1] initState).records =
        rW :: [upgradeRecords cfgW RecAction.buy "B" 1 (some 10) 0
          (some "BuySignal3")] := rfl
    rw [h]
    exact List.mem_cons_self _ _
  exact ⟨hmem, uniform_record_weight cfgW envW [0, 1] rW hmem⟩

/-! ## Pending-order uniqueness (claim C7) -/

/-- All pending orders are for pairwise distinct securities (the engine's
actual invariant, stronger than one-per-(security, action)). -/
def pendDistinct (l : List Order) : Prop :=
  l.Pairwise (fun a b => a.stockno ≠ b.stockno)

/-- No pending BUY order is for a security already in the holdings dict. -/
def buysNotHeld (m : List (String × Holding)) (l : List Order) : Prop :=
  ∀ o ∈ l, o.action = TradeSide.buy → heldIn m o.stockno = false

lemma heldIn_dictInsert_iff {β : Type} (m : List (String × β)) (k j : String)
    (v : β) :
    heldIn (dictInsert m k v) j = true ↔ heldIn m j = true ∨ j = k := by
  rw [heldIn_iff, dictInsert_map_fst]
  by_cases hk : heldIn m k = true
  · simp only [hk, if_true, ← heldIn_iff]
    constructor
    · exact Or.inl
    · rintro (h | rfl)
      · exact h
      · exact hk
  · simp only [hk, if_false, Bool.false_eq_true, List.mem_append,
      List.mem_singleton, ← heldIn_iff]

lemma heldIn_dictErase_imp {β : Type} {m : List (String × β)} {k j : String}
    (h : heldIn (dictErase m k) j = true) : heldIn m j = true := by
  rw [heldIn_iff, dictErase_map_fst] at h
  rw [heldIn_iff]
  exact List.mem_of_mem_filter h

lemma fillOrder_holdings (cfg : Config) (s : EngState) (o : Order) (td : ℕ)
    (tp : ℚ) :
    (fillOrder cfg s o td tp).holdings =
      match o.action with
      | .buy => dictInsert s.holdings o.stockno ⟨td, tp, o.info⟩
      | .sell => dictErase s.holdings o.stockno := by
  unfold fillOrder
  cases o.action <;> rfl

lemma heldIn_fillOrder_imp {cfg : Config} {s : EngState} {o : Order} {td : ℕ}
    {tp : ℚ} {k : String}
    (h : heldIn (fillOrder cfg s o td tp).holdings k = true) :
    heldIn s.holdings k = true ∨ k = o.stockno := by
  rw [fillOrder_holdings] at h
  rcases o with ⟨ostk, oact, oreq, oinfo⟩
  cases oact with
  | buy => exact (heldIn_dictInsert_iff ..).1 h
  | sell => exact Or.inl (heldIn_dictErase_imp h)

lemma settleGo_inv (cfg : Config) (env : Env) (date : ℕ) :
    ∀ (todo : List Order) (s : EngState),
      pendDistinct todo →
      buysNotHeld s.holdings todo →
      (settleGo cfg env date s todo).2.Sublist todo ∧
      (∀ k, heldIn (settleGo cfg env date s todo).1.holdings k = true →
        heldIn s.holdings k = true ∨ k ∈ todo.map (·.stockno)) ∧
      buysNotHeld (settleGo cfg env date s todo).1.holdings
        (settleGo cfg env date s todo).2 := by
  intro todo
  induction todo with
  | nil =>
    intro s _ _
    exact ⟨List.Sublist.refl _, fun k h => Or.inl h, fun o ho => absurd ho
      (List.not_mem_nil o)⟩
  | cons o rest ih =>
    intro s hd hb
    have hd' : pendDistinct rest := hd.of_cons
    have hdo : ∀ b ∈ rest, o.stockno ≠ b.stockno :=
      (List.pairwise_cons.1 hd).1
    unfold settleGo
    rcases hnt : env.nextTrade o.stockno o.requestDate with _ | ⟨td, tp⟩
    · -- no tradable bar: the order is kept
      have hb' : buysNotHeld s.holdings rest :=
        fun o' ho' => hb o' (List.mem_cons_of_mem o ho')
      obtain ⟨ih1, ih2, ih3⟩ := ih s hd' hb'
      refine ⟨ih1.cons₂ o, fun k hk => ?_, ?_⟩
      · rcases ih2 k hk with h | h
        · exact Or.inl h
        · exact Or.inr (List.mem_cons_of_mem _ h)
      · intro o' ho' ha'
        rcases List.mem_cons.1 ho' with rfl | ho'
        · -- the kept order o itself
          rcases hh : heldIn (settleGo cfg env date s rest).1.holdings
              o'.stockno with _ | _
          · rfl
          · rcases ih2 o'.stockno hh with h | h
            · rw [hb o' (List.mem_cons_self ..) ha'] at h
              exact absurd h (by simp)
            · rcases List.mem_map.1 h with ⟨b, hbmem, hbeq⟩
              exact absurd hbeq.symm (hdo b hbmem)
        · exact ih3 o' ho' ha'
    · by_cases htd : td ≤ date
      · -- the order fills
        simp only [if_pos htd]
        have hb' : buysNotHeld (fillOrder cfg s o td tp).holdings rest := by
          intro o' ho' ha'
          have hfo : heldIn s.holdings o'.stockno = false :=
            hb o' (List.mem_cons_of_mem o ho') ha'
          rcases hh : heldIn (fillOrder cfg s o td tp).holdings
              o'.stockno with _ | _
          · rfl
          · rcases heldIn_fillOrder_imp hh with h | h
            · rw [hfo] at h; exact absurd h (by simp)
            · exact absurd h (hdo o' ho').symm
        obtain ⟨ih1, ih2, ih3⟩ := ih (fillOrder cfg s o td tp) hd' hb'
        refine ⟨ih1.cons o, fun k hk => ?_, ih3⟩
        rcases ih2 k hk with h | h
        · rcases heldIn_fillOrder_imp h with h | h
          · exact Or.inl h
          · exact Or.inr (by simp [h])
        · exact Or.inr (List.mem_cons_of_mem _ h)
      · -- not yet tradable: the order is kept
        simp only [if_neg htd]
        have hb' : buysNotHeld s.holdings rest :=
          fun o' ho' => hb o' (List.mem_cons_of_mem o ho')
        obtain ⟨ih1, ih2, ih3⟩ := ih s hd' hb'
        refine ⟨ih1.cons₂ o, fun k hk => ?_, ?_⟩
        · rcases ih2 k hk with h | h
          · exact Or.inl h
          · exact Or.inr (List.mem_cons_of_mem _ h)
        · intro o' ho' ha'
          rcases List.mem_cons.1 ho' with rfl | ho'
          · rcases hh : heldIn (settleGo cfg env date s rest).1.holdings
                o'.stockno with _ | _
            · rfl
            · rcases ih2 o'.stockno hh with h | h
              · rw [hb o' (List.mem_cons_self ..) ha'] at h
                exact absurd h (by simp)
              · rcases List.mem_map.1 h with ⟨b, hbmem, hbeq⟩
                exact absurd hbeq.symm (hdo b hbmem)
          · exact ih3 o' ho' ha'

lemma settle_inv (cfg : Config) (env : Env) (date : ℕ) (s : EngState)
    (hd : pendDistinct s.pending) (hb : buysNotHeld s.holdings s.pending) :
    pendDistinct (settle cfg env date s).pending ∧
    buysNotHeld (settle cfg env date s).holdings
      (settle cfg env date s).pending := by
  unfold settle
  obtain ⟨h1, _, h3⟩ :=
    settleGo_inv cfg env date s.pending { s with pending := [] } hd hb
  exact ⟨hd.sublist h1, h3⟩

lemma sellScan_inv (cfg : Config) (env : Env) (date : ℕ) (s : EngState)
    (hd : pendDistinct s.pending) (hb : buysNotHeld s.holdings s.pending) :
    (sellScan cfg env date s).holdings = s.holdings ∧
    pendDistinct (sellScan cfg env date s).pending ∧
    buysNotHeld s.holdings (sellScan cfg env date s).pending := by
  unfold sellScan
  refine foldl_pres (P := fun st : EngState => st.holdings = s.holdings ∧
    pendDistinct st.pending ∧ buysNotHeld s.holdings st.pending) _ ?_
    (s.holdings.map (·.1)) s ⟨rfl, hd, hb⟩
  intro st k hP
  obtain ⟨hH, hD, hB⟩ := hP
  unfold sellConsider
  by_cases hg : (st.pending.any fun o =>
      decide (o.stockno = k ∧ o.action = TradeSide.sell)) = true
  · rw [if_pos hg]
    exact ⟨hH, hD, hB⟩
  · rw [if_neg hg]
    rcases hget : dictGet s.holdings k with _ | hld
    · simp only [hget]
      exact ⟨hH, hD, hB⟩
    · simp only [hget]
      rcases hcs : env.checkSell k date hld with _ | r
      · simp only [hcs]
        exact ⟨hH, hD, hB⟩
      · simp only [hcs]
        by_cases hr : r.sell = true
        · rw [if_pos hr]
          have hheld : heldIn s.holdings k = true := dictGet_some_heldIn hget
          refine ⟨hH, ?_, ?_⟩
          · unfold pendDistinct at hD ⊢
            rw [List.pairwise_append]
            refine ⟨hD, List.pairwise_singleton .., ?_⟩
            intro a ha b hbmem
            rcases List.mem_singleton.1 hbmem with rfl
            intro haeq
            cases hact : a.action with
            | buy =>
              have := hB a ha hact
              rw [haeq, hheld] at this
              exact absurd this (by simp)
            | sell =>
              apply hg
              rw [List.any_eq_true]
              exact ⟨a, ha, by simp [haeq, hact]⟩
          · intro o' ho' ha'
            rcases List.mem_append.1 ho' with ho' | ho'
            · exact hB o' ho' ha'
            · rcases List.mem_singleton.1 ho' with rfl
              simp at ha'
        · rw [if_neg hr]
          exact ⟨hH, hD, hB⟩

lemma coreConsider_cases (cfg : Config) (env : Env)
    (poolDay : List Candidate) (date : ℕ) (acc : CoreAcc) (k : String) :
    (coreConsider cfg env poolDay date acc k).st.holdings =
      acc.st.holdings ∧
    ((coreConsider cfg env poolDay date acc k).st.pending =
        acc.st.pending ∨
      ((heldIn acc.st.holdings k = false ∧
        (acc.st.pending.any fun o => decide (o.stockno = k)) = false) ∧
       ∃ info, (coreConsider cfg env poolDay date acc k).st.pending =
         acc.st.pending ++ [⟨k, TradeSide.buy, date, info⟩])) := by
  unfold coreConsider
  by_cases hskip : (heldIn acc.st.holdings k = true ∨
      (acc.st.pending.any fun o => decide (o.stockno = k)) = true)
  · rw [if_pos hskip]
    exact ⟨rfl, Or.inl rfl⟩
  · have h1 : heldIn acc.st.holdings k = false := by
      rcases hx : heldIn acc.st.holdings k
      · rfl
      · exact absurd (Or.inl hx) hskip
    have h2 : (acc.st.pending.any fun o => decide (o.stockno = k)) = false := by
      rcases hx : acc.st.pending.any fun o => decide (o.stockno = k)
      · rfl
      · exact absurd (Or.inr hx) hskip
    rw [if_neg hskip]
    rcases hcb : env.checkBuy k date with _ | r
    · exact ⟨rfl, Or.inl rfl⟩
    · by_cases hbuy : r.buy = true
      · simp only [if_pos hbuy]
        repeat' split
        all_goals
          first
            | exact ⟨rfl, Or.inl rfl⟩
            | exact ⟨rfl, Or.inr ⟨⟨h1, h2⟩, r.buySignal, rfl⟩⟩
      · simp [hbuy]

lemma coreScan_inv (cfg : Config) (env : Env) (poolDay : List Candidate)
    (date : ℕ) (s : EngState) (hd : pendDistinct s.pending)
    (hb : buysNotHeld s.holdings s.pending) :
    (coreScan cfg env poolDay date s).holdings = s.holdings ∧
    pendDistinct (coreScan cfg env poolDay date s).pending ∧
    buysNotHeld s.holdings (coreScan cfg env poolDay date s).pending := by
  unfold coreScan
  have := foldl_pres (P := fun a : CoreAcc => a.st.holdings = s.holdings ∧
      pendDistinct a.st.pending ∧ buysNotHeld s.holdings a.st.pending)
    (coreConsider cfg env poolDay date) ?_
    ((poolDay.map (·.stockno)).take cfg.coreN) ⟨s, [], false, false⟩
    ⟨rfl, hd, hb⟩
  · exact this
  · intro a k hP
    obtain ⟨hH, hD, hB⟩ := hP
    obtain ⟨hH', hcase⟩ := coreConsider_cases cfg env poolDay date a k
    refine ⟨hH'.trans hH, ?_, ?_⟩
    · rcases hcase with heq | ⟨⟨hk1, hk2⟩, info, heq⟩
      · rw [heq]; exact hD
      · unfold pendDistinct at hD ⊢
        rw [heq, List.pairwise_append]
        refine ⟨hD, List.pairwise_singleton .., ?_⟩
        intro x hx b hbmem
        rcases List.mem_singleton.1 hbmem with rfl
        intro hxeq
        have : (a.st.pending.any fun o => decide (o.stockno = k)) = true := by
          rw [List.any_eq_true]
          exact ⟨x, hx, by simp [hxeq]⟩
        rw [hk2] at this
        exact absurd this (by simp)
    · rcases hcase with heq | ⟨⟨hk1, hk2⟩, info, heq⟩
      · rw [heq]; exact hB
      · rw [heq]
        intro o' ho' ha'
        rcases List.mem_append.1 ho' with ho' | ho'
        · exact hB o' ho' ha'
        · rcases List.mem_singleton.1 ho' with rfl
          rw [← hH]
          exact hk1

lemma fallbackGo_inv (cfg : Config) (env : Env) (date : ℕ) :
    ∀ (ks : List String) (s : EngState), pendDistinct s.pending →
      buysNotHeld s.holdings s.pending →
      (fallbackGo cfg env date s ks).holdings = s.holdings ∧
      pendDistinct (fallbackGo cfg env date s ks).pending ∧
      buysNotHeld s.holdings (fallbackGo cfg env date s ks).pending := by
  intro ks
  induction ks with
  | nil => intro s hd hb; exact ⟨rfl, hd, hb⟩
  | cons k rest ih =>
    intro s hd hb
    unfold fallbackGo
    by_cases hbreak : cfg.minHold ≤ commitment s
    · rw [if_pos hbreak]; exact ⟨rfl, hd, hb⟩
    · rw [if_neg hbreak]
      by_cases hskip : (heldIn s.holdings k = true ∨
          (s.pending.any fun o => decide (o.stockno = k)) = true)
      · rw [if_pos hskip]; exact ih s hd hb
      · have h1 : heldIn s.holdings k = false := by
          rcases hx : heldIn s.holdings k
          · rfl
          · exact absurd (Or.inl hx) hskip
        have h2 : (s.pending.any fun o => decide (o.stockno = k)) = false := by
          rcases hx : s.pending.any fun o => decide (o.stockno = k)
          · rfl
          · exact absurd (Or.inr hx) hskip
        rw [if_neg hskip]
        rcases hcb : env.checkBuy k date with _ | r
        · exact ih s hd hb
        · by_cases hbuy : r.buy = true
          · simp only [if_pos hbuy]
            refine ih _ ?_ ?_
            · unfold pendDistinct at hd ⊢
              rw [List.pairwise_append]
              refine ⟨hd, List.pairwise_singleton .., ?_⟩
              intro x hx b hbmem
              rcases List.mem_singleton.1 hbmem with rfl
              intro hxeq
              have : (s.pending.any fun o => decide (o.stockno = k)) = true := by
                rw [List.any_eq_true]
                exact ⟨x, hx, by simp [hxeq]⟩
              rw [h2] at this
              exact absurd this (by simp)
            · intro o' ho' ha'
              rcases List.mem_append.1 ho' with ho' | ho'
              · exact hb o' ho' ha'
              · rcases List.mem_singleton.1 ho' with rfl
                exact h1
          · simp only [if_neg hbuy]
            exact ih s hd hb

lemma fallbackScan_inv (cfg : Config) (env : Env) (poolDay : List Candidate)
    (date : ℕ) (s : EngState) (hd : pendDistinct s.pending)
    (hb : buysNotHeld s.holdings s.pending) :
    (fallbackScan cfg env poolDay date s).holdings = s.holdings ∧
    pendDistinct (fallbackScan cfg env poolDay date s).pending ∧
    buysNotHeld s.holdings (fallbackScan cfg env poolDay date s).pending := by
  unfold fallbackScan
  split
  · exact fallbackGo_inv cfg env date _ s hd hb
  · exact ⟨rfl, hd, hb⟩

lemma dayStep_inv (cfg : Config) (env : Env) (s : EngState) (date : ℕ)
    (hd : pendDistinct s.pending) (hb : buysNotHeld s.holdings s.pending) :
    pendDistinct (dayStep cfg env s date).pending ∧
    buysNotHeld (dayStep cfg env s date).holdings
      (dayStep cfg env s date).pending := by
  unfold dayStep
  obtain ⟨hd1, hb1⟩ := settle_inv cfg env date s hd hb
  obtain ⟨hhh, hhp⟩ := holdScan_holdings_pending cfg env date
    (s.holdings.map (·.1)) (settle cfg env date s)
  have hd2 : pendDistinct (holdScan cfg env date (s.holdings.map (·.1))
      (settle cfg env date s)).pending := by rw [hhp]; exact hd1
  have hb2 : buysNotHeld (holdScan cfg env date (s.holdings.map (·.1))
        (settle cfg env date s)).holdings
      (holdScan cfg env date (s.holdings.map (·.1))
        (settle cfg env date s)).pending := by
    rw [hhp, hhh]; exact hb1
  obtain ⟨hH3, hd3, hb3⟩ := sellScan_inv cfg env date _ hd2 hb2
  rw [← hH3] at hb3
  obtain ⟨hH4, hd4, hb4⟩ := coreScan_inv cfg env (env.pool date) date _ hd3 hb3
  rw [← hH4] at hb4
  obtain ⟨hH5, hd5, hb5⟩ := fallbackScan_inv cfg env (env.pool date) date _
    hd4 hb4
  rw [← hH5] at hb5
  exact ⟨hd5, hb5⟩

lemma runDays_inv (cfg : Config) (env : Env) (dates : List ℕ) :
    pendDistinct (runDays cfg env dates initState).pending ∧
    buysNotHeld (runDays cfg env dates initState).holdings
      (runDays cfg env dates initState).pending := by
  unfold runDays
  refine foldl_pres (P := fun s : EngState => pendDistinct s.pending ∧
    buysNotHeld s.holdings s.pending) _ ?_ dates initState
    ⟨List.Pairwise.nil, fun o ho => absurd ho (List.not_mem_nil o)⟩
  intro s d ⟨hd, hb⟩
  exact dayStep_inv cfg env s d hd hb

/-- Claim C7: at every day boundary of the simulation loop, each security has
at most one pending order per action (in fact at most one pending order at
all), and no security simultaneously has a pending BUY order and an entry in
`holdings`. -/
theorem pending_order_uniqueness (cfg : Config) (env : Env)
    (dates : List ℕ) :
    (runDays cfg env dates initState).pending.Pairwise
      (fun a b => ¬(a.stockno = b.stockno ∧ a.action = b.action)) ∧
    ∀ o ∈ (runDays cfg env dates initState).pending,
      o.action = TradeSide.buy →
      heldIn (runDays cfg env dates initState).holdings o.stockno = false := by
  obtain ⟨hd, hb⟩ := runDays_inv cfg env dates
  refine ⟨hd.imp ?_, hb⟩
  intro a b hne ⟨heq, _⟩
  exact hne heq

/-! ## Order settlement (claim C2) -/

lemma barDateLE_trans : ∀ a b c : Bar, barDateLE a b = true →
    barDateLE b c = true → barDateLE a c = true := by
  intro a b c hab hbc
  simp only [barDateLE, decide_eq_true_eq] at *
  omega

lemma barDateLE_total : ∀ a b : Bar, (barDateLE a b || barDateLE b a) = true := by
  intro a b
  simp only [barDateLE, Bool.or_eq_true, decide_eq_true_eq]
  omega

lemma getNextTradeDayPrice_some {data : List Bar} {R d : ℕ} {p : ℚ}
    (h : getNextTradeDayPrice data R = some (d, p)) :
    (∃ b ∈ data, b.date = d ∧ b.openPrice = some p ∧ R < b.date) ∧
    ∀ b ∈ data, R < b.date → b.openPrice ≠ none → d ≤ b.date := by
  simp only [getNextTradeDayPrice] at h
  rcases hf : ((data.filter (fun b => decide (R < b.date))).mergeSort
      barDateLE).find? (fun b => b.openPrice.isSome) with _ | b
  · simp only [hf] at h
    exact Option.noConfusion h
  · simp only [hf] at h
    rcases hb : b.openPrice with _ | q
    · simp only [hb] at h
      exact Option.noConfusion h
    · simp only [hb, Option.some_inj] at h
      obtain ⟨hd, hp⟩ := Prod.mk.inj h
      subst hd hp
      have hperm := List.mergeSort_perm
        (data.filter (fun b => decide (R < b.date))) barDateLE
      have hmem := List.mem_of_find?_eq_some hf
      have hmem' : b ∈ data.filter (fun b => decide (R < b.date)) :=
        hperm.mem_iff.1 hmem
      have hbd : b ∈ data ∧ R < b.date := by
        have := List.mem_filter.1 hmem'
        exact ⟨this.1, by simpa using this.2⟩
      constructor
      · exact ⟨b, hbd.1, rfl, hb, hbd.2⟩
      · intro b' hb' hR' hopen
        have hb'mem : b' ∈ (data.filter (fun b => decide (R < b.date))).mergeSort
            barDateLE := by
          rw [hperm.mem_iff]
          exact List.mem_filter.2 ⟨hb', by simpa using hR'⟩
        obtain ⟨hpb, as, bs, hsrt, has⟩ := List.find?_eq_some.1 hf
        have hsorted := List.sorted_mergeSort barDateLE_trans barDateLE_total
          (data.filter (fun b => decide (R < b.date)))
        rw [hsrt] at hb'mem hsorted
        rcases List.mem_append.1 hb'mem with hin | hin
        · have := has b' hin
          rcases ho : b'.openPrice with _ | q'
          · exact absurd ho hopen
          · rw [ho] at this; simp at this
        · rcases List.mem_cons.1 hin with rfl | hin
          · exact le_refl _
          · have hcross := (List.pairwise_cons.1
              (List.pairwise_append.1 hsorted).2.1).1 b' hin
            simpa [barDateLE] using hcross

lemma getNextTradeDayPrice_none {data : List Bar} {R : ℕ}
    (h : getNextTradeDayPrice data R = none) :
    ∀ b ∈ data, R < b.date → b.openPrice = none := by
  simp only [getNextTradeDayPrice] at h
  rcases hf : ((data.filter (fun b => decide (R < b.date))).mergeSort
      barDateLE).find? (fun b => b.openPrice.isSome) with _ | b
  · intro b hb hR
    have hmem : b ∈ (data.filter (fun b => decide (R < b.date))).mergeSort
        barDateLE := by
      rw [(List.mergeSort_perm _ barDateLE).mem_iff]
      exact List.mem_filter.2 ⟨hb, by simpa using hR⟩
    have := List.find?_eq_none.1 hf b hmem
    simpa using this
  · simp only [hf] at h
    have hpb := List.find?_some hf
    rcases hb : b.openPrice with _ | q
    · rw [hb] at hpb; simp at hpb
    · simp only [hb] at h
      exact Option.noConfusion h

lemma settleGo_records_mono (cfg : Config) (env : Env) (date : ℕ) :
    ∀ (todo : List Order) (s : EngState) (r : Rec), r ∈ s.records →
      r ∈ (settleGo cfg env date s todo).1.records := by
  intro todo
  induction todo with
  | nil => intro s r hr; exact hr
  | cons o rest ih =>
    intro s r hr
    unfold settleGo
    rcases env.nextTrade o.stockno o.requestDate with _ | ⟨td, tp⟩
    · exact ih s r hr
    · by_cases htd : td ≤ date
      · simp only [if_pos htd]
        refine ih _ r ?_
        rw [fillOrder_records]
        exact List.mem_append_left _ hr
      · simp only [if_neg htd]
        exact ih s r hr

lemma settleGo_fill_rec (cfg : Config) (env : Env) (date : ℕ) :
    ∀ (todo : List Order) (s : EngState) (o : Order) (td : ℕ) (tp : ℚ),
      o ∈ todo → env.nextTrade o.stockno o.requestDate = some (td, tp) →
      td ≤ date →
      ∃ sig, upgradeRecords cfg o.action.toRecAction o.stockno td (some tp)
        o.requestDate sig ∈ (settleGo cfg env date s todo).1.records := by
  intro todo
  induction todo with
  | nil => intro s o td tp hmem; exact absurd hmem (List.not_mem_nil o)
  | cons o' rest ih =>
    intro s o td tp hmem hnt htd
    rcases List.mem_cons.1 hmem with rfl | hmem
    · unfold settleGo
      rw [hnt]
      simp only [if_pos htd]
      refine ⟨match o.action with
        | .sell => (dictGet s.holdings o.stockno).bind (·.buySignal)
        | .buy => o.info, ?_⟩
      apply settleGo_records_mono
      rw [fillOrder_records]
      exact List.mem_append_right _ (List.mem_singleton.2 rfl)
    · unfold settleGo
      rcases env.nextTrade o'.stockno o'.requestDate with _ | ⟨td', tp'⟩
      · exact ih s o td tp hmem hnt htd
      · by_cases htd' : td' ≤ date
        · simp only [if_pos htd']
          exact ih _ o td tp hmem hnt htd
        · simp only [if_neg htd']
          exact ih s o td tp hmem hnt htd

lemma settleGo_fill_not_pending (cfg : Config) (env : Env) (date : ℕ) :
    ∀ (todo : List Order) (s : EngState) (o : Order) (td : ℕ) (tp : ℚ),
      env.nextTrade o.stockno o.requestDate = some (td, tp) → td ≤ date →
      o ∉ (settleGo cfg env date s todo).2 := by
  intro todo
  induction todo with
  | nil => intro s o td tp _ _; exact List.not_mem_nil o
  | cons o' rest ih =>
    intro s o td tp hnt htd
    unfold settleGo
    rcases hnt' : env.nextTrade o'.stockno o'.requestDate with _ | ⟨td', tp'⟩
    · intro hmem
      rcases List.mem_cons.1 hmem with rfl | hmem
      · rw [hnt] at hnt'; exact absurd hnt' (by simp)
      · exact ih s o td tp hnt htd hmem
    · by_cases htd' : td' ≤ date
      · simp only [if_pos htd']
        exact ih _ o td tp hnt htd
      · simp only [if_neg htd']
        intro hmem
        rcases List.mem_cons.1 hmem with rfl | hmem
        · rw [hnt] at hnt'
          obtain ⟨h1, h2⟩ := Prod.mk.inj (Option.some_inj.1 hnt')
          exact htd' (h1 ▸ htd)
        · exact ih s o td tp hnt htd hmem

lemma settleGo_nofill_pending (cfg : Config) (env : Env) (date : ℕ) :
    ∀ (todo : List Order) (s : EngState) (o : Order), o ∈ todo →
      (∀ td tp, env.nextTrade o.stockno o.requestDate = some (td, tp) →
        ¬ td ≤ date) →
      o ∈ (settleGo cfg env date s todo).2 := by
  intro todo
  induction todo with
  | nil => intro s o hmem; exact absurd hmem (List.not_mem_nil o)
  | cons o' rest ih =>
    intro s o hmem hno
    unfold settleGo
    rcases List.mem_cons.1 hmem with rfl | hmem
    · rcases hnt : env.nextTrade o.stockno o.requestDate with _ | ⟨td, tp⟩
      · exact List.mem_cons_self ..
      · have := hno td tp hnt
        simp only [if_neg this]
        exact List.mem_cons_self ..
    · rcases hnt' : env.nextTrade o'.stockno o'.requestDate with _ | ⟨td', tp'⟩
      · exact List.mem_cons_of_mem o' (ih s o hmem hno)
      · by_cases htd' : td' ≤ date
        · simp only [if_pos htd']
          exact ih _ o hmem hno
        · simp only [if_neg htd']
          exact List.mem_cons_of_mem o' (ih s o hmem hno)

/-- Claim C2: the fill lookup returns the chronologically first bar with a
non-null `Open` strictly after the request date (or `None` when no such bar
exists), and a pending order fills — appending a ledger record at that bar's
date and Open price — exactly when that bar's date is on/before the current
simulation day; otherwise it stays pending unchanged. -/
theorem order_settlement (data : List Bar) (R : ℕ) (cfg : Config) (env : Env)
    (date : ℕ) (s : EngState) (o : Order) (ho : o ∈ s.pending) :
    (∀ d p, getNextTradeDayPrice data R = some (d, p) →
       (∃ b ∈ data, b.date = d ∧ b.openPrice = some p ∧ R < b.date) ∧
       ∀ b ∈ data, R < b.date → b.openPrice ≠ none → d ≤ b.date) ∧
    (getNextTradeDayPrice data R = none →
       ∀ b ∈ data, R < b.date → b.openPrice = none) ∧
    (∀ td tp, env.nextTrade o.stockno o.requestDate = some (td, tp) →
       td ≤ date →
       (∃ sig, upgradeRecords cfg o.action.toRecAction o.stockno td (some tp)
          o.requestDate sig ∈ (settle cfg env date s).records) ∧
       o ∉ (settle cfg env date s).pending) ∧
    ((∀ td tp, env.nextTrade o.stockno o.requestDate = some (td, tp) →
        ¬ td ≤ date) →
       o ∈ (settle cfg env date s).pending) := by
  refine ⟨fun d p h => getNextTradeDayPrice_some h,
    fun h => getNextTradeDayPrice_none h, ?_, ?_⟩
  · intro td tp hnt htd
    unfold settle
    exact ⟨settleGo_fill_rec cfg env date s.pending _ o td tp ho hnt htd,
      settleGo_fill_not_pending cfg env date s.pending _ o td tp hnt htd⟩
  · intro hno
    unfold settle
    exact settleGo_nofill_pending cfg env date s.pending _ o ho hno

/-- Order and state used by the `order_settlement` witness. -/
def oC2 : Order := ⟨"A", TradeSide.buy, 0, some "BuySignal3"⟩

/-- State with the single pending order `oC2`. -/
def sC2 : EngState := ⟨[], [oC2], [], []⟩

/-- Environment whose fill lookup matches `dataC2`. -/
def envC2 : Env where
  nextTrade := fun _ _ => some (2, 10)
  recentPrice := fun _ _ => some 10
  checkBuy := fun _ _ => none
  checkSell := fun _ _ _ => none
  pool := fun _ => []

/-- Price data for the `order_settlement` witness: the bar at date 1 has a
null Open, the first valid bar after the request is at date 2. -/
def dataC2 : List Bar := [⟨2, some 10, some 10⟩, ⟨1, none, none⟩]

/-- Witness for `order_settlement` at a concrete order, state and data. -/
theorem order_settlement_witness :
    (∀ d p, getNextTradeDayPrice dataC2 0 = some (d, p) →
       (∃ b ∈ dataC2, b.date = d ∧ b.openPrice = some p ∧ 0 < b.date) ∧
       ∀ b ∈ dataC2, 0 < b.date → b.openPrice ≠ none → d ≤ b.date) ∧
    (getNextTradeDayPrice dataC2 0 = none →
       ∀ b ∈ dataC2, 0 < b.date → b.openPrice = none) ∧
    (∀ td tp, envC2.nextTrade oC2.stockno oC2.requestDate = some (td, tp) →
       td ≤ 3 →
       (∃ sig, upgradeRecords cfgW oC2.action.toRecAction oC2.stockno td
          (some tp) oC2.requestDate sig ∈ (settle cfgW envC2 3 sC2).records) ∧
       oC2 ∉ (settle cfgW envC2 3 sC2).pending) ∧
    ((∀ td tp, envC2.nextTrade oC2.stockno oC2.requestDate = some (td, tp) →
        ¬ td ≤ 3) →
       oC2 ∈ (settle cfgW envC2 3 sC2).pending) :=
  order_settlement dataC2 0 cfgW envC2 3 sC2 oC2 (List.mem_cons_self ..)

/-! ## Regime-gated dispatch (claim C4) -/

lemma searchsortedRight_le_length (l : List ℕ) (x : ℕ) :
    searchsortedRight l x ≤ l.length :=
  (List.takeWhile_sublist _).length_le

lemma searchsorted_spec (l : List ℕ) (hl : l.Pairwise (· ≤ ·)) (x : ℕ) :
    (∀ d ∈ l.take (searchsortedRight l x), d ≤ x) ∧
    (∀ d ∈ l.drop (searchsortedRight l x), x < d) := by
  induction l with
  | nil => simp
  | cons a t ih =>
    obtain ⟨ha, ht⟩ := List.pairwise_cons.1 hl
    by_cases hax : a ≤ x
    · have hss : searchsortedRight (a :: t) x = searchsortedRight t x + 1 := by
        unfold searchsortedRight
        simp [List.takeWhile_cons, hax]
      rw [hss]
      constructor
      · intro d hd
        rw [List.take_succ_cons] at hd
        rcases List.mem_cons.1 hd with rfl | hd
        · exact hax
        · exact (ih ht).1 d hd
      · intro d hd
        rw [List.drop_succ_cons] at hd
        exact (ih ht).2 d hd
    · have hss : searchsortedRight (a :: t) x = 0 := by
        unfold searchsortedRight
        simp [List.takeWhile_cons, hax]
      rw [hss]
      refine ⟨by simp, ?_⟩
      intro d hd
      rw [List.drop_zero] at hd
      rcases List.mem_cons.1 hd with rfl | hd
      · omega
      · have := ha d hd
        omega

lemma marsiBar_spec (hsi : List HsiBar) (D : ℕ)
    (hsorted : (hsi.map (·.date)).Pairwise (· ≤ ·)) :
    ∀ bar, marsiBar hsi D = some bar →
      bar ∈ hsi ∧ bar.date ≤ D ∧ ∀ b ∈ hsi, b.date ≤ D → b.date ≤ bar.date := by
  intro bar h
  simp only [marsiBar] at h
  set n := searchsortedRight (hsi.map (·.date)) D with hn
  by_cases h0 : n = 0
  · rw [if_pos h0] at h
    exact Option.noConfusion h
  · rw [if_neg h0] at h
    have hnl : n ≤ hsi.length := by
      have := searchsortedRight_le_length (hsi.map (·.date)) D
      simpa using this
    have hlt : n - 1 < hsi.length := by omega
    have hbar : bar = hsi.getD (n - 1) ⟨0, 0, none, none⟩ :=
      (Option.some_inj.1 h).symm
    have hbar' : bar = hsi[n - 1] := by
      rw [hbar, List.getD_eq_getElem _ _ hlt]
    obtain ⟨hspec1, hspec2⟩ := searchsorted_spec (hsi.map (·.date)) hsorted D
    have hdates_len : (hsi.map (·.date)).length = hsi.length :=
      List.length_map ..
    have hlt2 : n - 1 < (hsi.map (·.date)).length := by omega
    have hdate_bar : bar.date = (hsi.map (·.date))[n - 1] := by
      rw [hbar']
      simp
    refine ⟨hbar' ▸ List.getElem_mem hlt, ?_, ?_⟩
    · apply hspec1
      rw [hdate_bar]
      have hmemtake : (hsi.map (·.date))[n - 1] ∈
          (hsi.map (·.date)).take n := by
        have hidx : n - 1 < ((hsi.map (·.date)).take n).length := by
          simp [hdates_len]
          omega
        have := List.getElem_take (hsi.map (·.date)) (i := n - 1)
          (j := n) (h := hidx)
        rw [← this]
        exact List.getElem_mem hidx
      exact hmemtake
    · intro b hb hbD
      have hbmem : b.date ∈ hsi.map (·.date) := List.mem_map.2 ⟨b, hb, rfl⟩
      obtain ⟨j, hj, hjeq⟩ := List.getElem_of_mem hbmem
      by_cases hjn : j < n
      · -- within the take-prefix: sortedness gives b.date ≤ bar.date
        rcases Nat.lt_or_ge j (n - 1) with hjlt | hjge
        · have := (List.pairwise_iff_getElem.1 hsorted) j (n - 1)
            hj (by omega) hjlt
          rw [hjeq] at this
          rw [hdate_bar]
          exact this
        · have hjeq' : j = n - 1 := by omega
          subst hjeq'
          rw [hdate_bar, ← hjeq]
      · -- in the drop-suffix: its date would exceed D, contradiction
        exfalso
        have hnlen : n < (hsi.map (·.date)).length := by
          rw [hdates_len]
          omega
        have h0 : 0 < ((hsi.map (·.date)).drop n).length := by
          simp only [List.length_drop, hdates_len]
          omega
        have hmemn : (hsi.map (·.date))[n] ∈ (hsi.map (·.date)).drop n := by
          have hmem0 := List.getElem_mem (l := (hsi.map (·.date)).drop n)
            (n := 0) h0
          rw [List.getElem_drop] at hmem0
          exact hmem0
        have hDlt : D < (hsi.map (·.date))[n] := hspec2 _ hmemn
        have hble : (hsi.map (·.date))[n] ≤ b.date := by
          rcases Nat.lt_or_ge n j with hlt2 | hge2
          · have hle := (List.pairwise_iff_getElem.1 hsorted) n j hnlen hj hlt2
            rw [hjeq] at hle
            exact hle
          · have hnj : n = j := by omega
            subst hnj
            rw [← hjeq]
        omega

/-- Claim C4: the composer reads the last broad-index bar dated at or before
the query date; when that bar's close is below its 200-period moving average
only the oversold-recovery evaluator (`BuySignal1`) is consulted — the result
does not depend on the band-breakout evaluator — and symmetrically otherwise;
the fired variant's class name is stored in the result's `buy_signal`
metadata, so exactly one buy-signal variant can fire per security per day. -/
theorem regime_gated_dispatch (hsi : List HsiBar)
    (sig1 sig3 sig1x sig3x : String → ℕ → Option SignalResult)
    (k : String) (D : ℕ)
    (hsorted : (hsi.map (·.date)).Pairwise (· ≤ ·)) :
    (∀ bar, marsiBar hsi D = some bar →
       bar ∈ hsi ∧ bar.date ≤ D ∧
       ∀ b ∈ hsi, b.date ≤ D → b.date ≤ bar.date) ∧
    ∀ bar ma, marsiBar hsi D = some bar → bar.ma200 = some ma →
      bar.rsi.isSome = true →
      ((bar.close < ma →
         checkBuyMarsi hsi sig1 sig3 k D = checkBuyMarsi hsi sig1 sig3x k D ∧
         ∀ r, checkBuyMarsi hsi sig1 sig3 k D = some r →
           ((r.buy = true ↔ ∃ res, sig1 k D = some res ∧ res.buy = true) ∧
            (r.buy = true → r.buySignal = some "BuySignal1"))) ∧
       (¬ bar.close < ma →
         checkBuyMarsi hsi sig1 sig3 k D = checkBuyMarsi hsi sig1x sig3 k D ∧
         ∀ r, checkBuyMarsi hsi sig1 sig3 k D = some r →
           ((r.buy = true ↔ ∃ res, sig3 k D = some res ∧ res.buy = true) ∧
            (r.buy = true → r.buySignal = some "BuySignal3")))) := by
  refine ⟨marsiBar_spec hsi D hsorted, ?_⟩
  intro bar ma hbar hma hrsi
  obtain ⟨rv, hrv⟩ := Option.isSome_iff_exists.1 hrsi
  constructor
  · intro hlt
    unfold checkBuyMarsi
    simp only [hbar, hma, hrv, if_pos hlt]
    refine ⟨trivial, ?_⟩
    intro r hr
    rcases hs1 : sig1 k D with _ | res
    · simp only [hs1] at hr
      rcases Option.some_inj.1 hr with rfl
      constructor
      · simp
      · intro hbuy
        exact absurd hbuy (by simp)
    · simp only [hs1] at hr
      by_cases hbuy : res.buy = true
      · rw [if_pos hbuy] at hr
        rcases Option.some_inj.1 hr with rfl
        constructor
        · simp only [true_iff]
          exact ⟨res, rfl, hbuy⟩
        · intro _; rfl
      · rw [if_neg hbuy] at hr
        rcases Option.some_inj.1 hr with rfl
        constructor
        · simp only [Bool.false_eq_true, false_iff]
          rintro ⟨res', hres', hbuy'⟩
          rcases Option.some_inj.1 hres' with rfl
          exact hbuy hbuy'
        · intro hbuy'
          exact absurd hbuy' (by simp)
  · intro hge
    unfold checkBuyMarsi
    simp only [hbar, hma, hrv, if_neg hge]
    refine ⟨trivial, ?_⟩
    intro r hr
    rcases hs3 : sig3 k D with _ | res
    · simp only [hs3] at hr
      rcases Option.some_inj.1 hr with rfl
      constructor
      · simp
      · intro hbuy
        exact absurd hbuy (by simp)
    · simp only [hs3] at hr
      by_cases hbuy : res.buy = true
      · rw [if_pos hbuy] at hr
        rcases Option.some_inj.1 hr with rfl
        constructor
        · simp only [true_iff]
          exact ⟨res, rfl, hbuy⟩
        · intro _; rfl
      · rw [if_neg hbuy] at hr
        rcases Option.some_inj.1 hr with rfl
        constructor
        · simp only [Bool.false_eq_true, false_iff]
          rintro ⟨res', hres', hbuy'⟩
          rcases Option.some_inj.1 hres' with rfl
          exact hbuy hbuy'
        · intro hbuy'
          exact absurd hbuy' (by simp)

/-- Broad-index table used by the `regime_gated_dispatch` witness: one bar
whose close (5) is below its MA200 (6). -/
def hsiW : List HsiBar := [⟨1, 5, some 6, some 50⟩]

/-- Witness for `regime_gated_dispatch` on `hsiW` with concrete evaluators. -/
theorem regime_gated_dispatch_witness :
    (∀ bar, marsiBar hsiW 2 = some bar →
       bar ∈ hsiW ∧ bar.date ≤ 2 ∧
       ∀ b ∈ hsiW, b.date ≤ 2 → b.date ≤ bar.date) ∧
    ∀ bar ma, marsiBar hsiW 2 = some bar → bar.ma200 = some ma →
      bar.rsi.isSome = true →
      ((bar.close < ma →
         checkBuyMarsi hsiW (fun _ _ => some ⟨true, false⟩)
             (fun _ _ => some ⟨false, false⟩) "A" 2 =
           checkBuyMarsi hsiW (fun _ _ => some ⟨true, false⟩)
             (fun _ _ => none) "A" 2 ∧
         ∀ r, checkBuyMarsi hsiW (fun _ _ => some ⟨true, false⟩)
             (fun _ _ => some ⟨false, false⟩) "A" 2 = some r →
           ((r.buy = true ↔ ∃ res, (fun _ _ => some (⟨true, false⟩ :
               SignalResult)) "A" 2 = some res ∧ res.buy = true) ∧
            (r.buy = true → r.buySignal = some "BuySignal1"))) ∧
       (¬ bar.close < ma →
         checkBuyMarsi hsiW (fun _ _ => some ⟨true, false⟩)
             (fun _ _ => some ⟨false, false⟩) "A" 2 =
           checkBuyMarsi hsiW (fun _ _ => none)
             (fun _ _ => some ⟨false, false⟩) "A" 2 ∧
         ∀ r, checkBuyMarsi hsiW (fun _ _ => some ⟨true, false⟩)
             (fun _ _ => some ⟨false, false⟩) "A" 2 = some r →
           ((r.buy = true ↔ ∃ res, (fun _ _ => some (⟨false, false⟩ :
               SignalResult)) "A" 2 = some res ∧ res.buy = true) ∧
            (r.buy = true → r.buySignal = some "BuySignal3")))) :=
  regime_gated_dispatch hsiW (fun _ _ => some ⟨true, false⟩)
    (fun _ _ => some ⟨false, false⟩) (fun _ _ => none) (fun _ _ => none)
    "A" 2 (by decide)

/-! ## Trailing-stop sell (claim C5) -/

lemma sellConsider_pending_mono (cfg : Config) (env : Env) (date : ℕ)
    (s st : EngState) (k : String) (o : Order) (ho : o ∈ st.pending) :
    o ∈ (sellConsider cfg env date s st k).pending := by
  unfold sellConsider
  repeat' split
  · exact ho
  · exact List.mem_append_left _ ho
  · exact ho
  · exact ho
  · exact ho

lemma sellFold_pending_mono (cfg : Config) (env : Env) (date : ℕ)
    (s : EngState) :
    ∀ (ks : List String) (st : EngState) (o : Order), o ∈ st.pending →
      o ∈ (ks.foldl (sellConsider cfg env date s) st).pending := by
  intro ks
  induction ks with
  | nil => intro st o ho; exact ho
  | cons k rest ih =>
    intro st o ho
    exact ih _ o (sellConsider_pending_mono cfg env date s st k o ho)

lemma sellConsider_newQ (cfg : Config) (env : Env) (date : ℕ)
    (s st : EngState) (k j : String)
    (hQ : ∀ o ∈ st.pending, o.stockno = j → o.action = TradeSide.sell →
      o.requestDate = date) :
    ∀ o ∈ (sellConsider cfg env date s st k).pending, o.stockno = j →
      o.action = TradeSide.sell → o.requestDate = date := by
  unfold sellConsider
  repeat' split
  · exact hQ
  · intro o ho hoj hos
    rcases List.mem_append.1 ho with ho | ho
    · exact hQ o ho hoj hos
    · rcases List.mem_singleton.1 ho with rfl
      rfl
  · exact hQ
  · exact hQ
  · exact hQ

lemma sellFold_exists (cfg : Config) (env : Env) (date : ℕ) (s : EngState)
    (k : String) (hld : Holding) (r : StrategyResult)
    (hget : dictGet s.holdings k = some hld)
    (hcs : env.checkSell k date hld = some r) (hr : r.sell = true) :
    ∀ (ks : List String) (st : EngState), k ∈ ks →
      (∀ o ∈ st.pending, o.stockno = k → o.action = TradeSide.sell →
        o.requestDate = date) →
      ∃ o ∈ (ks.foldl (sellConsider cfg env date s) st).pending,
        o.stockno = k ∧ o.action = TradeSide.sell ∧ o.requestDate = date := by
  intro ks
  induction ks with
  | nil => intro st hmem; exact absurd hmem (List.not_mem_nil k)
  | cons k' rest ih =>
    intro st hmem hQ
    rcases List.mem_cons.1 hmem with rfl | hmem
    · -- k's own turn: a SELL order for k is present afterwards
      have hstep : ∃ o ∈ (sellConsider cfg env date s st k).pending,
          o.stockno = k ∧ o.action = TradeSide.sell ∧
          o.requestDate = date := by
        unfold sellConsider
        by_cases hg : (st.pending.any fun o =>
            decide (o.stockno = k ∧ o.action = TradeSide.sell)) = true
        · rw [if_pos hg]
          obtain ⟨o, ho, hprop⟩ := List.any_eq_true.1 hg
          simp only [decide_eq_true_eq] at hprop
          exact ⟨o, ho, hprop.1, hprop.2, hQ o ho hprop.1 hprop.2⟩
        · rw [if_neg hg]
          simp only [hget, hcs, if_pos hr]
          exact ⟨⟨k, TradeSide.sell, date, r.buySignal⟩,
            List.mem_append_right _ (List.mem_singleton.2 rfl), rfl, rfl, rfl⟩
      obtain ⟨o, ho, hprop⟩ := hstep
      exact ⟨o, sellFold_pending_mono cfg env date s rest _ o ho, hprop⟩
    · exact ih _ hmem (sellConsider_newQ cfg env date s st k' k hQ)

/-- Claim C5: with non-empty truncated history, `SellSignal1.check_signal`
fires exactly when the current close is strictly below (the maximum close on
bars dated on/after `buy_date`, within the point-in-time history) times
`(1 - trailing_stop_rate)`; the default rate is 0.08; and when the composed
sell check fires for a held security without a pending SELL, the engine's
sell scan enqueues a `PendingOrder(SELL)` requested the same day. -/
theorem trailing_stop_sell (rate : ℚ) (data : List Bar) (date buyDate : ℕ)
    (today : Bar) (c hmaxv : ℚ)
    (hlast : (loadUntil data date).getLast? = some today)
    (hc : today.closePrice = some c)
    (hmax : listMaxQ (((loadUntil data date).filter
        (fun b => decide (buyDate ≤ b.date))).filterMap
        (fun b => b.closePrice)) = some hmaxv)
    (cfg : Config) (env : Env) (s : EngState) (k : String) (hld : Holding)
    (r : StrategyResult)
    (hget : dictGet s.holdings k = some hld)
    (hnosell : ∀ o ∈ s.pending,
      ¬(o.stockno = k ∧ o.action = TradeSide.sell))
    (hcs : env.checkSell k date hld = some r) (hr : r.sell = true) :
    (∃ res, sellSignal1Check rate data date buyDate = some res ∧
       (res.sell = true ↔ c < hmaxv * (1 - rate))) ∧
    trailingStopRateDefault = 8 / 100 ∧
    ∃ o ∈ (sellScan cfg env date s).pending,
      o.stockno = k ∧ o.action = TradeSide.sell ∧ o.requestDate = date := by
  refine ⟨?_, rfl, ?_⟩
  · unfold sellSignal1Check
    simp only [hlast, hc, hmax]
    exact ⟨_, rfl, by simp⟩
  · unfold sellScan
    have hkmem : k ∈ s.holdings.map (·.1) := by
      rw [← heldIn_iff]
      exact dictGet_some_heldIn hget
    refine sellFold_exists cfg env date s k hld r hget hcs hr
      (s.holdings.map (·.1)) s hkmem ?_
    intro o ho hok hos
    exact absurd ⟨hok, hos⟩ (hnosell o ho)

/-- Price data for the `trailing_stop_sell` witness: post-entry peak close
100 on day 1, close 91 on day 2 — a 9% retracement. -/
def dataC5 : List Bar := [⟨1, some 100, some 100⟩, ⟨2, some 91, some 91⟩]

/-- Holding used by the `trailing_stop_sell` witness. -/
def hldC5 : Holding := ⟨1, 100, some "BuySignal1"⟩

/-- State holding the single security "A" with no pending orders. -/
def sC5 : EngState := ⟨[("A", hldC5)], [], [], []⟩

/-- Environment whose sell check always fires. -/
def envC5 : Env where
  nextTrade := fun _ _ => none
  recentPrice := fun _ _ => none
  checkBuy := fun _ _ => none
  checkSell := fun _ _ _ => some ⟨false, true, none⟩
  pool := fun _ => []

/-- Witness for `trailing_stop_sell`: a 9% drop from the post-entry peak with
the default 8% rate fires the signal, and the engine enqueues the SELL order
the same day. -/
theorem trailing_stop_sell_witness :
    (∃ res, sellSignal1Check (8 / 100) dataC5 2 1 = some res ∧
       (res.sell = true ↔ (91 : ℚ) < 100 * (1 - 8 / 100))) ∧
    trailingStopRateDefault = 8 / 100 ∧
    ∃ o ∈ (sellScan cfgW envC5 2 sC5).pending,
      o.stockno = "A" ∧ o.action = TradeSide.sell ∧ o.requestDate = 2 :=
  trailing_stop_sell (8 / 100) dataC5 2 1 ⟨2, some 91, some 91⟩ 91 100
    (by rfl) (by rfl) (by rfl) cfgW envC5 sC5 "A" hldC5 ⟨false, true, none⟩
    (by rfl) (by intro o ho; exact absurd ho (List.not_mem_nil o))
    (by rfl) (by rfl)

/-! ## Low-momentum-crossover buy (claim C6) -/

/-- The firing condition of claim C6 exactly as the spec states it: price
above the long EMA, "current EMA greater than the EMA measured 5 periods
earlier" (the row 5 positions before the current row, index `len - 1 - 5`),
MACD crossing above its signal line, MACD magnitude below the percentile
threshold, MACD strictly positive. -/
def buySignal2ClaimFires (macdHistoryDays : ℕ) (macdLowQuantile : ℚ)
    (df : List MacdRow) : Bool :=
  let d0 : MacdRow := ⟨0, 0, 0, 0, 0⟩
  let today := df.getD (df.length - 1) d0
  let yesterday := df.getD (df.length - 2) d0
  let emaFivePeriodsEarlier := (df.getD (df.length - 1 - 5) d0).ema
  let thr := npPercentile ((tailN df macdHistoryDays).map (fun x => |x.macd|))
    macdLowQuantile
  decide (today.ema < today.close) &&
  decide (emaFivePeriodsEarlier < today.ema) &&
  decide (today.signal < today.macd) &&
  decide (yesterday.macd ≤ yesterday.signal) &&
  decide (|today.macd| < thr) && decide (0 < today.macd)

/-- The amended firing condition matching the source: the EMA comparison uses
the 5th most recent row (`df.iloc[-5]`), i.e. the EMA measured 4 periods
before the current bar; all other conjuncts as in the claim. -/
def buySignal2AmendedFires (macdHistoryDays : ℕ) (macdLowQuantile : ℚ)
    (df : List MacdRow) : Bool :=
  let d0 : MacdRow := ⟨0, 0, 0, 0, 0⟩
  let today := df.getD (df.length - 1) d0
  let yesterday := df.getD (df.length - 2) d0
  let emaFourPeriodsEarlier := (df.getD (df.length - 5) d0).ema
  let thr := npPercentile ((tailN df macdHistoryDays).map (fun x => |x.macd|))
    macdLowQuantile
  decide (today.ema < today.close) &&
  decide (emaFourPeriodsEarlier < today.ema) &&
  decide (today.signal < today.macd) &&
  decide (yesterday.macd ≤ yesterday.signal) &&
  decide (|today.macd| < thr) && decide (0 < today.macd)

/-- Indicator table refuting claim C6 as stated: the EMA 4 periods before the
current bar (9) is below today's EMA (10), so the source fires, but the EMA
5 periods before the current bar (20) is above it, so the claim's condition
fails. -/
def dfC6 : List MacdRow :=
  (List.range 44).map (fun i => ⟨i, 0, 1, 1, 1⟩) ++
    [⟨44, 0, 1, 1, 20⟩, ⟨45, 0, 1, 1, 9⟩, ⟨46, 0, 1, 1, 1⟩,
     ⟨47, 0, 1, 1, 1⟩, ⟨48, 0, 1, 1, 1⟩, ⟨49, 100, 1/2, 0, 10⟩]

/-- Claim C6 counterexample: with default parameters on `dfC6`,
`BuySignal2.check_signal` fires, yet the claim's condition (EMA measured 5
periods earlier) is false — the source compares against `df.iloc[-5]`, only
4 periods before the current bar. -/
theorem low_momentum_crossover_counterexample :
    buySignal2Check macdHistoryDaysDefault emaLengthDefault
        macdLowQuantileDefault (some dfC6) 49 =
      some ⟨true, false⟩ ∧
    buySignal2ClaimFires macdHistoryDaysDefault macdLowQuantileDefault
      (dfC6.filter (fun x => decide (x.date ≤ 49))) = false :=
  ⟨by decide, by decide⟩

/-- Claim C6 (amended): whenever `BuySignal2.check_signal` returns a result,
it fires exactly when (1) the close is above the long EMA and the current EMA
exceeds the EMA of the 5th most recent bar (4 periods earlier), (2) MACD
crosses above its signal line (today MACD > signal, yesterday MACD ≤ signal)
with `|MACD|` below the `macd_low_quantile` percentile of `|MACD|` over the
last `macd_history_days` bars, and (3) MACD is strictly positive. -/
theorem low_momentum_crossover_characterization (mhd el : ℕ) (q : ℚ)
    (data : List MacdRow) (date : ℕ) (r : SignalResult)
    (hres : buySignal2Check mhd el q (some data) date = some r) :
    r.buy = true ↔
      buySignal2AmendedFires mhd q
        (data.filter (fun x => decide (x.date ≤ date))) = true := by
  simp only [buySignal2Check] at hres
  by_cases hlen : (data.filter (fun x => decide (x.date ≤ date))).length <
      max el 5
  · rw [if_pos hlen] at hres
    exact Option.noConfusion hres
  · rw [if_neg hlen] at hres
    rcases Option.some_inj.1 hres with rfl
    simp only [buySignal2AmendedFires, Bool.and_eq_true, decide_eq_true_eq,
      and_assoc]
    constructor
    · intro h
      obtain ⟨hA, hB, hC, hD, hE, hF⟩ := h
      exact ⟨hE, hF, hC, hD, by rwa [abs_of_pos hA], hA⟩
    · intro h
      obtain ⟨hE, hF, hC, hD, hAbs, hA⟩ := h
      exact ⟨hA, by rwa [abs_of_pos hA] at hAbs, hC, hD, hE, hF⟩

/-- Witness for `low_momentum_crossover_characterization` at `dfC6`. -/
theorem low_momentum_crossover_characterization_witness :
    buySignal2Check macdHistoryDaysDefault emaLengthDefault
        macdLowQuantileDefault (some dfC6) 49 = some ⟨true, false⟩ ∧
    ((⟨true, false⟩ : SignalResult).buy = true ↔
      buySignal2AmendedFires macdHistoryDaysDefault macdLowQuantileDefault
        (dfC6.filter (fun x => decide (x.date ≤ 49))) = true) :=
  ⟨by decide, low_momentum_crossover_characterization macdHistoryDaysDefault
    emaLengthDefault macdLowQuantileDefault dfC6 49 ⟨true, false⟩ (by decide)⟩

/-! ## Full-position snapshot (claim C3) -/

/-- Configuration for the claim C3 counterexample: capacity 1, one core
candidate. -/
def cfgC3 : Config := ⟨1, 0, 1⟩

/-- Environment for the claim C3 counterexample: a single candidate whose buy
signal fires. -/
def envC3 : Env where
  nextTrade := fun _ _ => none
  recentPrice := fun _ _ => none
  checkBuy := fun _ _ => some ⟨true, false, some "BuySignal3"⟩
  checkSell := fun _ _ _ => none
  pool := fun _ => [⟨"A", 1, 5⟩]

/-- Claim C3 counterexample: with `max_hold = 1` and a single firing core
candidate, the admission itself brings total commitment up to `max_hold`
during the core scan, yet no snapshot is recorded and the admitted buy "A" is
not appended with `actually_bought = true` — the snapshot is only taken at
the first buy signal that fires while capacity is already exhausted, not "at
the moment total commitment first reaches max_hold". -/
theorem snapshot_not_at_capacity_reach :
    commitment (dayStep cfgC3 envC3 initState 0) = cfgC3.maxHold ∧
    (∃ o ∈ (dayStep cfgC3 envC3 initState 0).pending,
      o.stockno = "A" ∧ o.action = TradeSide.buy) ∧
    (dayStep cfgC3 envC3 initState 0).fullPos = [] := by
  refine ⟨by decide, ⟨⟨"A", TradeSide.buy, 0, some "BuySignal3"⟩, ?_, rfl,
    rfl⟩, by decide⟩
  decide

/-- Per-candidate snapshot contribution after the transition (spec wording:
"every subsequent core-tier candidate whose buy signal fires that day is
appended with actually_bought = false"); the state no longer changes after
the transition, so the holdings/pending used by the skip test are fixed. -/
def snapPostEntry (env : Env) (poolDay : List Candidate) (date : ℕ)
    (hold : List (String × Holding)) (pend : List Order) (k : String) :
    List SnapEntry :=
  if heldIn hold k ∨ pend.any (fun o => o.stockno = k) then []
  else
    match env.checkBuy k date with
    | some r =>
      if r.buy then
        match snapLookup poolDay k with
        | some c => [⟨date, k, c.point, c.rank, false⟩]
        | none => []
      else []
    | none => []

/-- Snapshot entries appended after the transition, over the remaining
candidates. -/
def snapPost (env : Env) (poolDay : List Candidate) (date : ℕ)
    (hold : List (String × Holding)) (pend : List Order) :
    List String → List SnapEntry
  | [] => []
  | k :: rest => snapPostEntry env poolDay date hold pend k ++
      snapPost env poolDay date hold pend rest

/-- The snapshot entries of one day's core scan, per the amended claim: scan
in rank order; admitted buys accumulate silently while commitment is below
`max_hold`; the first candidate whose signal fires at full commitment
triggers the single transition — every earlier-admitted buy appended with
`actually_bought = true`, that candidate and every later firing candidate
appended with `actually_bought = false` — and no admission happens afterwards. -/
def snapSpec (cfg : Config) (env : Env) (poolDay : List Candidate) (date : ℕ)
    (s : EngState) (bought : List String) : List String → List SnapEntry
  | [] => []
  | k :: rest =>
    if heldIn s.holdings k ∨ s.pending.any (fun o => o.stockno = k) then
      snapSpec cfg env poolDay date s bought rest
    else
      match env.checkBuy k date with
      | some r =>
        if r.buy then
          if commitment s < cfg.maxHold then
            snapSpec cfg env poolDay date
              { s with pending := s.pending ++ [⟨k, .buy, date, r.buySignal⟩] }
              (bought ++ [k]) rest
          else
            bought.filterMap (fun b => (snapLookup poolDay b).map (fun c =>
              SnapEntry.mk date b c.point c.rank true)) ++
            (match snapLookup poolDay k with
              | some c => [⟨date, k, c.point, c.rank, false⟩]
              | none => []) ++
            snapPost env poolDay date s.holdings s.pending rest
        else snapSpec cfg env poolDay date s bought rest
      | none => snapSpec cfg env poolDay date s bought rest

lemma coreConsider_post (cfg : Config) (env : Env) (poolDay : List Candidate)
    (date : ℕ) (acc : CoreAcc) (k : String)
    (hfull : acc.isFull = true) (hrec : acc.recorded = true)
    (hcur : cfg.maxHold ≤ commitment acc.st)
    (hb : ∀ b ∈ acc.bought, b ∈ acc.st.pending.map (·.stockno)) :
    (coreConsider cfg env poolDay date acc k).st.holdings =
      acc.st.holdings ∧
    (coreConsider cfg env poolDay date acc k).st.pending = acc.st.pending ∧
    (coreConsider cfg env poolDay date acc k).bought = acc.bought ∧
    (coreConsider cfg env poolDay date acc k).isFull = true ∧
    (coreConsider cfg env poolDay date acc k).recorded = true ∧
    (coreConsider cfg env poolDay date acc k).st.fullPos =
      acc.st.fullPos ++
        snapPostEntry env poolDay date acc.st.holdings acc.st.pending k := by
  have hncur : ¬ commitment acc.st < cfg.maxHold := Nat.not_lt.2 hcur
  by_cases hskip : (heldIn acc.st.holdings k = true ∨
      (acc.st.pending.any fun o => decide (o.stockno = k)) = true)
  · have hstep : coreConsider cfg env poolDay date acc k = acc := by
      unfold coreConsider
      rw [if_pos hskip]
    have hpe : snapPostEntry env poolDay date acc.st.holdings
        acc.st.pending k = [] := by
      unfold snapPostEntry
      rw [if_pos hskip]
    rw [hstep, hpe, List.append_nil]
    exact ⟨rfl, rfl, rfl, hfull, hrec, rfl⟩
  · rcases hcb : env.checkBuy k date with _ | r
    · have hstep : coreConsider cfg env poolDay date acc k = acc := by
        unfold coreConsider
        rw [if_neg hskip, hcb]
      have hpe : snapPostEntry env poolDay date acc.st.holdings
          acc.st.pending k = [] := by
        unfold snapPostEntry
        rw [if_neg hskip, hcb]
      rw [hstep, hpe, List.append_nil]
      exact ⟨rfl, rfl, rfl, hfull, hrec, rfl⟩
    · by_cases hbuy : r.buy = true
      · have hcont : acc.bought.contains k = false := by
          have hnot : k ∉ acc.bought := by
            intro hk
            obtain ⟨o, ho, hoe⟩ := List.mem_map.1 (hb k hk)
            exact hskip (Or.inr (List.any_eq_true.2 ⟨o, ho, by simp [hoe]⟩))
          simpa using hnot
        rcases hsl : snapLookup poolDay k with _ | c
        · have hstep : coreConsider cfg env poolDay date acc k = acc := by
            unfold coreConsider
            rw [if_neg hskip, hcb]
            simp only [if_pos hbuy, if_neg hncur,
              if_neg (not_not_intro hrec), hfull, if_true, hsl]
          have hpe : snapPostEntry env poolDay date acc.st.holdings
              acc.st.pending k = [] := by
            unfold snapPostEntry
            rw [if_neg hskip, hcb]
            simp only [if_pos hbuy, hsl]
          rw [hstep, hpe, List.append_nil]
          exact ⟨rfl, rfl, rfl, hfull, hrec, rfl⟩
        · have hstep : coreConsider cfg env poolDay date acc k =
              { acc with st := { acc.st with fullPos := acc.st.fullPos ++
                [⟨date, k, c.point, c.rank, acc.bought.contains k⟩] } } := by
            unfold coreConsider
            rw [if_neg hskip, hcb]
            simp only [if_pos hbuy, if_neg hncur,
              if_neg (not_not_intro hrec), hfull, if_true, hsl]
          have hpe : snapPostEntry env poolDay date acc.st.holdings
              acc.st.pending k = [⟨date, k, c.point, c.rank, false⟩] := by
            unfold snapPostEntry
            rw [if_neg hskip, hcb]
            simp only [if_pos hbuy, hsl]
          rw [hstep, hpe, hcont]
          exact ⟨rfl, rfl, rfl, hfull, hrec, rfl⟩
      · have hstep : coreConsider cfg env poolDay date acc k = acc := by
          unfold coreConsider
          rw [if_neg hskip, hcb]
          simp only [if_neg hbuy]
        have hpe : snapPostEntry env poolDay date acc.st.holdings
            acc.st.pending k = [] := by
          unfold snapPostEntry
          rw [if_neg hskip, hcb]
          simp only [if_neg hbuy]
        rw [hstep, hpe, List.append_nil]
        exact ⟨rfl, rfl, rfl, hfull, hrec, rfl⟩

lemma corePost_spec (cfg : Config) (env : Env) (poolDay : List Candidate)
    (date : ℕ) :
    ∀ (ks : List String) (acc : CoreAcc),
      acc.isFull = true → acc.recorded = true →
      cfg.maxHold ≤ commitment acc.st →
      (∀ b ∈ acc.bought, b ∈ acc.st.pending.map (·.stockno)) →
      (ks.foldl (coreConsider cfg env poolDay date) acc).st.fullPos =
        acc.st.fullPos ++
          snapPost env poolDay date acc.st.holdings acc.st.pending ks := by
  intro ks
  induction ks with
  | nil => intro acc _ _ _ _; exact (List.append_nil _).symm
  | cons k rest ih =>
    intro acc hfull hrec hcur hb
    obtain ⟨hH, hP, hB, hF, hR, hFull⟩ :=
      coreConsider_post cfg env poolDay date acc k hfull hrec hcur hb
    rw [List.foldl_cons]
    have hcur2 : cfg.maxHold ≤ commitment
        (coreConsider cfg env poolDay date acc k).st := by
      unfold commitment at hcur ⊢
      rw [hH, hP]
      exact hcur
    have hb2 : ∀ b ∈ (coreConsider cfg env poolDay date acc k).bought,
        b ∈ (coreConsider cfg env poolDay date acc k).st.pending.map
          (·.stockno) := by
      rw [hB, hP]
      exact hb
    rw [ih (coreConsider cfg env poolDay date acc k) hF hR hcur2 hb2,
      hH, hP, hFull, snapPost, List.append_assoc]

lemma corePre_spec (cfg : Config) (env : Env) (poolDay : List Candidate)
    (date : ℕ) :
    ∀ (ks : List String) (s : EngState) (bought : List String),
      (∀ b ∈ bought, b ∈ s.pending.map (·.stockno)) →
      (ks.foldl (coreConsider cfg env poolDay date)
        ⟨s, bought, false, false⟩).st.fullPos =
        s.fullPos ++ snapSpec cfg env poolDay date s bought ks := by
  intro ks
  induction ks with
  | nil => intro s bought _; exact (List.append_nil _).symm
  | cons k rest ih =>
    intro s bought hb
    rw [List.foldl_cons, snapSpec]
    by_cases hskip : (heldIn s.holdings k = true ∨
        (s.pending.any fun o => decide (o.stockno = k)) = true)
    · have hstep : coreConsider cfg env poolDay date
          ⟨s, bought, false, false⟩ k = ⟨s, bought, false, false⟩ := by
        simp only [coreConsider, if_pos hskip]
      rw [hstep, if_pos hskip]
      exact ih s bought hb
    · have hheld : heldIn s.holdings k = false := by
        rcases Bool.eq_false_or_eq_true (heldIn s.holdings k) with h | h
        · exact absurd (Or.inl h) hskip
        · exact h
      have hnp : ∀ x ∈ s.pending, ¬x.stockno = k := by
        intro x hx he
        exact hskip (Or.inr (List.any_eq_true.2 ⟨x, hx, by simp [he]⟩))
      rcases hcb : env.checkBuy k date with _ | r
      · have hstep : coreConsider cfg env poolDay date
            ⟨s, bought, false, false⟩ k = ⟨s, bought, false, false⟩ := by
          simp only [coreConsider, if_neg hskip, hcb]
        rw [hstep, if_neg hskip]
        exact ih s bought hb
      · by_cases hbuy : r.buy = true
        · by_cases hcur : commitment s < cfg.maxHold
          · -- admission: commitment still below capacity
            have hstep : coreConsider cfg env poolDay date
                ⟨s, bought, false, false⟩ k =
                ⟨{ s with pending := s.pending ++
                    [⟨k, TradeSide.buy, date, r.buySignal⟩] },
                  bought ++ [k], false, false⟩ := by
              simp [coreConsider, if_neg hskip, hcb, if_pos hbuy,
                if_pos hcur]
              exact ⟨hheld, hnp⟩
            rw [hstep, if_neg hskip]
            simp only [if_pos hbuy, if_pos hcur]
            refine ih _ (bought ++ [k]) ?_
            intro b hbm
            rcases List.mem_append.1 hbm with hbm | hbm
            · have := hb b hbm
              simp only [List.map_append]
              exact List.mem_append_left _ this
            · rcases List.mem_singleton.1 hbm with rfl
              simp
          · -- the snapshot transition: first firing candidate at capacity
            have hcont : bought.contains k = false := by
              have hnot : k ∉ bought := by
                intro hk
                obtain ⟨o, ho, hoe⟩ := List.mem_map.1 (hb k hk)
                exact hskip (Or.inr (List.any_eq_true.2
                  ⟨o, ho, by simp [hoe]⟩))
              simpa using hnot
            have hcur2 : cfg.maxHold ≤ commitment s := Nat.le_of_not_lt hcur
            rcases hsl : snapLookup poolDay k with _ | c
            · have hstep : coreConsider cfg env poolDay date
                  ⟨s, bought, false, false⟩ k =
                  ⟨{ s with fullPos := s.fullPos ++
                      bought.filterMap (fun b => (snapLookup poolDay b).map
                        (fun c => SnapEntry.mk date b c.point c.rank true)) },
                    bought, true, true⟩ := by
                simp [coreConsider, if_neg hskip, hcb, if_pos hbuy,
                  if_neg hcur, hsl]
                exact ⟨hheld, hnp⟩
              rw [hstep, if_neg hskip]
              simp only [if_pos hbuy, if_neg hcur, hsl]
              have hpost := corePost_spec cfg env poolDay date rest
                ⟨{ s with fullPos := s.fullPos ++
                    bought.filterMap (fun b => (snapLookup poolDay b).map
                      (fun c => SnapEntry.mk date b c.point c.rank true)) },
                  bought, true, true⟩ rfl rfl hcur2 hb
              rw [hpost]
              simp [List.append_assoc]
            · have hstep : coreConsider cfg env poolDay date
                  ⟨s, bought, false, false⟩ k =
                  ⟨{ s with fullPos := (s.fullPos ++
                      bought.filterMap (fun b => (snapLookup poolDay b).map
                        (fun c => SnapEntry.mk date b c.point c.rank true))) ++
                      [⟨date, k, c.point, c.rank, bought.contains k⟩] },
                    bought, true, true⟩ := by
                simp [coreConsider, if_neg hskip, hcb, if_pos hbuy,
                  if_neg hcur, hsl]
                exact ⟨hheld, hnp⟩
              rw [hstep, if_neg hskip]
              simp only [if_pos hbuy, if_neg hcur, hsl]
              have hpost := corePost_spec cfg env poolDay date rest
                ⟨{ s with fullPos := (s.fullPos ++
                    bought.filterMap (fun b => (snapLookup poolDay b).map
                      (fun c => SnapEntry.mk date b c.point c.rank true))) ++
                    [⟨date, k, c.point, c.rank, bought.contains k⟩] },
                  bought, true, true⟩ rfl rfl hcur2 hb
              rw [hpost, hcont]
              simp [List.append_assoc]
        · have hstep : coreConsider cfg env poolDay date
              ⟨s, bought, false, false⟩ k = ⟨s, bought, false, false⟩ := by
            simp only [coreConsider, if_neg hskip, hcb, if_neg hbuy]
          rw [hstep, if_neg hskip]
          simp only [if_neg hbuy]
          exact ih s bought hb

lemma fallbackGo_fullPos (cfg : Config) (env : Env) (date : ℕ) :
    ∀ (ks : List String) (s : EngState),
      (fallbackGo cfg env date s ks).fullPos = s.fullPos := by
  intro ks
  induction ks with
  | nil => intro s; rfl
  | cons k rest ih =>
    intro s
    unfold fallbackGo
    split
    · rfl
    · split
      · exact ih s
      · split
        · split
          · exact ih _
          · exact ih s
        · exact ih s

/-- Claim C3 (amended): the snapshot entries a day's scan appends are exactly
those of `snapSpec` — at most one transition per day, taken at the first
core-tier candidate whose buy signal fires while total commitment is already
at `max_hold` (none if no candidate fires at capacity, even when capacity was
reached by that day's admissions); at the transition every buy admitted
earlier in the day's scan is appended with `actually_bought = true`, and that
candidate plus every subsequent firing core candidate is appended with
`actually_bought = false`; the fallback tier never contributes entries. -/
theorem full_position_snapshot (cfg : Config) (env : Env)
    (poolDay : List Candidate) (date : ℕ) (s s2 : EngState) :
    (coreScan cfg env poolDay date s).fullPos =
      s.fullPos ++ snapSpec cfg env poolDay date s []
        ((poolDay.map (·.stockno)).take cfg.coreN) ∧
    (fallbackScan cfg env poolDay date s2).fullPos = s2.fullPos := by
  constructor
  · unfold coreScan
    exact corePre_spec cfg env poolDay date _ s []
      (fun b hb => absurd hb (List.not_mem_nil b))
  · unfold fallbackScan
    split
    · exact fallbackGo_fullPos cfg env date _ s2
    · rfl
